import Mathlib

/-!
Verification development for the `cloudflare-webhook-proxy` repository.

The repository contains two Cloudflare-worker webhook handlers
(`src/src/worker.ts` and an extended variant), a Cloudflare Pages
function, and a Python script `link_pr_to_notion_task.py` that links
GitHub pull requests with Notion task pages.

The embedding below translates the relevant functions into Lean:
pure string manipulation is modelled over `List Char` (JavaScript's
UTF-16 code units and Python's code points agree with Lean's `Char`
code points on all inputs considered here); remote HTTP calls
(Notion search, Slack, GitHub, crypto digests) are modelled as
oracle parameters, and the handlers record the outbound calls they
make in an explicit trace.

Unicode caveats, documented once here: `Char.toLower`/`Char.toUpper`
(Lean core) fold only ASCII letters, while Python's `str.upper` and
JavaScript's `toUpperCase` also fold non-ASCII letters; the regex
character classes `\w`, `\d`, `\s` are modelled by their ASCII cores
(plus the common Unicode whitespace for `\s`).  All digests, task
codes and URLs handled by the source are ASCII, where the models
agree exactly with the source semantics.
-/

/-! ### Character-level groundwork -/

theorem charOfNatAux_toNat (n : Nat) (h : n.isValidChar) : (Char.ofNatAux n h).toNat = n := by
  simp [Char.ofNatAux, Char.toNat, UInt32.toNat]

theorem charOfNat_toNat (n : Nat) (h : n.isValidChar) : (Char.ofNat n).toNat = n := by
  simp [Char.ofNat, h, charOfNatAux_toNat]

theorem charToNat_inj {a b : Char} (h : a.toNat = b.toNat) : a = b :=
  Char.ext (UInt32.ext h)

theorem toLower_toNat (c : Char) :
    (Char.toLower c).toNat = if 65 ≤ c.toNat ∧ c.toNat ≤ 90 then c.toNat + 32 else c.toNat := by
  show (if 65 ≤ c.toNat ∧ c.toNat ≤ 90 then Char.ofNat (c.toNat + 32) else c).toNat = _
  split
  · exact charOfNat_toNat _ (Or.inl (by omega))
  · rfl

theorem toUpper_toNat (c : Char) :
    (Char.toUpper c).toNat = if 97 ≤ c.toNat ∧ c.toNat ≤ 122 then c.toNat - 32 else c.toNat := by
  show (if 97 ≤ c.toNat ∧ c.toNat ≤ 122 then Char.ofNat (c.toNat - 32) else c).toNat = _
  split
  · exact charOfNat_toNat _ (Or.inl (by omega))
  · rfl

theorem toLower_idem (c : Char) : (Char.toLower c).toLower = c.toLower := by
  apply charToNat_inj
  rw [toLower_toNat, toLower_toNat]
  split_ifs <;> omega

theorem toUpper_idem (c : Char) : (Char.toUpper c).toUpper = c.toUpper := by
  apply charToNat_inj
  rw [toUpper_toNat, toUpper_toNat]
  split_ifs <;> omega

/-- ASCII decimal digit, the core of the regex class `\d`. -/
def isDigitChar (c : Char) : Bool := 48 ≤ c.toNat && c.toNat ≤ 57

/-- ASCII word character `[A-Za-z0-9_]`, the core of the regex class `\w`
used by the `\b` boundary assertions. -/
def isWordChar (c : Char) : Bool :=
  isDigitChar c || (65 ≤ c.toNat && c.toNat ≤ 90) || (97 ≤ c.toNat && c.toNat ≤ 122)
    || c.toNat = 95

/-- Hexadecimal digit, the regex class `[0-9a-fA-F]`. -/
def isHexChar (c : Char) : Bool :=
  isDigitChar c || (97 ≤ c.toNat && c.toNat ≤ 102) || (65 ≤ c.toNat && c.toNat ≤ 70)

theorem isHexChar_toLower {c : Char} (h : isHexChar c = true) :
    isHexChar c.toLower = true := by
  simp only [isHexChar, isDigitChar, Bool.or_eq_true, Bool.and_eq_true,
    decide_eq_true_eq] at h ⊢
  rw [toLower_toNat]
  split <;> omega

theorem isHexChar_ne_hyphen {c : Char} (h : isHexChar c = true) : c ≠ '-' := by
  intro hc
  subst hc
  simp only [isHexChar, isDigitChar] at h
  revert h
  decide

/-! ### `ensure_uuid_hyphens` (Python script, `link_pr_to_notion_task.py`)

`def ensure_uuid_hyphens(id32)`: strips every `-` from the input
(`id32.replace("-", "")`); if the result is not 32 hex characters the
input is returned as-is, otherwise the stripped value is regrouped as
`8-4-4-4-12`. -/

/-- The hyphen-stripped character list of a string (`id32.replace("-", "")`). -/
def stripHyphens (s : String) : List Char :=
  s.data.filter fun c => decide (c ≠ '-')

def ensure_uuid_hyphens (id32 : String) : String :=
  let s := stripHyphens id32
  if s.length = 32 ∧ s.all isHexChar then
    String.mk (s.take 8 ++ '-' :: ((s.drop 8).take 4 ++ '-' :: ((s.drop 12).take 4 ++
      '-' :: ((s.drop 16).take 4 ++ '-' :: (s.drop 20).take 12))))
  else id32

/-- C10: for every input string, `ensure_uuid_hyphens` returns the
8-4-4-4-12 hyphenation of the hyphen-stripped input when that stripped
form is exactly 32 hexadecimal characters, and returns the input
completely unchanged otherwise (malformed ids pass through unaltered). -/
theorem ensure_uuid_hyphens_correct (id32 : String) :
    ((stripHyphens id32).length = 32 ∧ (stripHyphens id32).all isHexChar = true →
      ensure_uuid_hyphens id32 =
        String.mk ((stripHyphens id32).take 8 ++ '-' ::
          (((stripHyphens id32).drop 8).take 4 ++ '-' ::
            (((stripHyphens id32).drop 12).take 4 ++ '-' ::
              (((stripHyphens id32).drop 16).take 4 ++ '-' ::
                ((stripHyphens id32).drop 20).take 12))))) ∧
    (¬ ((stripHyphens id32).length = 32 ∧ (stripHyphens id32).all isHexChar = true) →
      ensure_uuid_hyphens id32 = id32) := by
  unfold ensure_uuid_hyphens
  constructor
  · intro h
    rw [if_pos h]
  · intro h
    rw [if_neg h]

/-- Witness for C10: a concrete well-formed 32-hex id is hyphenated, and a
malformed id passes through unchanged. -/
theorem ensure_uuid_hyphens_correct_witness :
    ensure_uuid_hyphens "25b6cafc5b5c801fba02ea17d3cc4b77" =
      "25b6cafc-5b5c-801f-ba02-ea17d3cc4b77" ∧
    ensure_uuid_hyphens "not-a-uuid" = "not-a-uuid" := by
  constructor
  · have h := (ensure_uuid_hyphens_correct "25b6cafc5b5c801fba02ea17d3cc4b77").1 (by decide)
    rw [h]
    decide
  · exact (ensure_uuid_hyphens_correct "not-a-uuid").2 (by decide)

/-! ### Signature header parsing and constant-time comparison (`worker.ts`) -/

/-- JavaScript `str.split(sep)` for a one-character separator, over the
character list of the string. -/
def splitOnChar (sep : Char) : List Char → List (List Char)
  | [] => [[]]
  | c :: cs =>
    match splitOnChar sep cs with
    | [] => [[]]
    | h :: t => if c = sep then [] :: h :: t else (c :: h) :: t

/-- The value actually compared by both webhook workers, from
`const provided = header.includes("=") ? header.split("=")[1] : header;`
(`worker.ts` line 117, and the same expression in the other handlers). -/
def providedOf (header : String) : String :=
  if header.data.contains '=' then
    String.mk ((splitOnChar '=' header.data).getD 1 [])
  else header

/-- Modelled from the spec: the entire substring of the header after the
first `=` (what the spec says is compared), for comparison with
`providedOf`. -/
def afterFirstEqSpec (header : String) : String :=
  if header.data.contains '=' then
    String.mk ((header.data.dropWhile fun c => decide (c ≠ '=')).tail)
  else header

/-- `timingSafeEq` from the extended worker (identical body to
`timingSafeEqualB64` in `worker.ts`): false on a length mismatch, else
OR-accumulate the XOR of the char codes at each index and test the
accumulator against zero. -/
def timingSafeEq (a b : String) : Bool :=
  if a.length ≠ b.length then false
  else ((a.data.zip b.data).foldl (fun r p => r ||| (p.1.toNat ^^^ p.2.toNat)) 0) = 0

/-- `timingSafeEqualB64` from `worker.ts` (same body as `timingSafeEq`). -/
def timingSafeEqualB64 (a b : String) : Bool := timingSafeEq a b

/-- `verifyHmacSha1Base64(bodyText, secret, header)` from `worker.ts`, with
the WebCrypto call abstracted: `expected` stands for the base64-encoded
HMAC-SHA1 of the raw body text under the secret
(`btoa(String.fromCharCode(...new Uint8Array(sig)))`). -/
def verifyHmacSha1Base64 (header expected : String) : Bool :=
  timingSafeEqualB64 (providedOf header) expected

/-- C1 (code bug): for the prefixed header `sha1=<digest>` the code
compares only the segment strictly between the first and the second `=`
(`split("=")[1]`), not the entire substring after the first `=`.  A
base64 HMAC-SHA1 digest is 28 characters ending in `=` padding, so the
compared value drops the padding and, having a different length than the
expected digest, can never verify — contradicting the code's own comment
("accept either with or without the sha1= prefix") and the repository's
test script, which sends `expo-signature: sha1=$SIG` with base64 `$SIG`. -/
theorem providedOf_truncates_base64_padding :
    providedOf "sha1=ebVWoy3UAaCMAcCv1mLs1jcmY/s=" = "ebVWoy3UAaCMAcCv1mLs1jcmY/s" ∧
    afterFirstEqSpec "sha1=ebVWoy3UAaCMAcCv1mLs1jcmY/s=" = "ebVWoy3UAaCMAcCv1mLs1jcmY/s=" ∧
    providedOf "sha1=ebVWoy3UAaCMAcCv1mLs1jcmY/s=" ≠
      afterFirstEqSpec "sha1=ebVWoy3UAaCMAcCv1mLs1jcmY/s=" ∧
    verifyHmacSha1Base64 "sha1=ebVWoy3UAaCMAcCv1mLs1jcmY/s="
      "ebVWoy3UAaCMAcCv1mLs1jcmY/s=" = false := by
  refine ⟨by decide, by decide, by decide, by decide⟩

/-! ### The extended worker's multi-digest match chain -/

structure HmacPair where
  b64 : String
  hex : String
deriving DecidableEq

/-- Output of `computeHmacs(body, secret)` (extended worker): the HMAC of
the raw body under the secret, for each algorithm, in each encoding.  The
digest values themselves are abstract (WebCrypto is not embedded). -/
structure Hmacs where
  sha1 : HmacPair
  sha256 : HmacPair
deriving DecidableEq

inductive HashAlg where
  | sha1
  | sha256
deriving DecidableEq

/-- The extended worker's signature acceptance (part_000 lines 644-648):
`timingSafeEq(provided, exp.sha1.b64) || timingSafeEq(provided, exp.sha1.hex)
 || timingSafeEq(provided, exp.sha256.b64) || timingSafeEq(provided, exp.sha256.hex)`. -/
def sigMatchOk (provided : String) (exp : Hmacs) : Bool :=
  timingSafeEq provided exp.sha1.b64 || timingSafeEq provided exp.sha1.hex ||
    timingSafeEq provided exp.sha256.b64 || timingSafeEq provided exp.sha256.hex

/-- The same chain as the ordered list of (algorithm, digest) comparison
attempts, in the source's left-to-right evaluation order. -/
def sigAttempts (exp : Hmacs) : List (HashAlg × String) :=
  [(HashAlg.sha1, exp.sha1.b64), (HashAlg.sha1, exp.sha1.hex),
   (HashAlg.sha256, exp.sha256.b64), (HashAlg.sha256, exp.sha256.hex)]

/-- C3 (counterexample): at a concrete digest set, the first SHA-256
comparison attempt does NOT precede the first SHA-1 attempt in the match
chain — the chain tries SHA-1 (base64, hex) before SHA-256. -/
theorem sigAttempts_sha256_not_first :
    ¬ ((sigAttempts ⟨⟨"a", "b"⟩, ⟨"c", "d"⟩⟩).findIdx
        (fun p => p.1 = HashAlg.sha256) <
       (sigAttempts ⟨⟨"a", "b"⟩, ⟨"c", "d"⟩⟩).findIdx
        (fun p => p.1 = HashAlg.sha1)) := by decide

/-- C3 (amended): the verifier attempts the two SHA-1 encodings before the
two SHA-256 encodings, and acceptance is exactly a match against any
attempt of that ordered chain. -/
theorem sigAttempts_sha1_before_sha256 (exp : Hmacs) :
    (sigAttempts exp).map Prod.fst =
      [HashAlg.sha1, HashAlg.sha1, HashAlg.sha256, HashAlg.sha256] ∧
    ∀ provided : String,
      sigMatchOk provided exp =
        (sigAttempts exp).any fun p => timingSafeEq provided p.2 := by
  refine ⟨rfl, fun provided => ?_⟩
  simp [sigMatchOk, sigAttempts, Bool.or_assoc]

/-! ### `notion_append_pr_bullet` (Python script) — idempotent annotator

The script fetches a page's first 100 child blocks
(`notion_get_children`) and appends a bullet carrying the PR URL unless
some existing `bulleted_list_item` block already contains the PR URL as a
substring.  The model below passes the child-block list explicitly (it is
the remote state the GET returns) and reports whether a write (the PATCH)
was performed; the PATCH is assumed to succeed, appending at the end of
the children as the Notion API does. -/

/-- Python substring test `needle in haystack`. -/
def strContains (haystack needle : String) : Bool :=
  decide (needle.data <:+: haystack.data)

/-- A Notion child block as the script sees it: its `type` tag and the
`text.content` strings of its `rich_text` fragments. -/
structure NotionBlock where
  type : String
  richTexts : List String
deriving DecidableEq

/-- The block the script appends:
`{"type": "bulleted_list_item", "rich_text": [{"text": {"content": "PR: <url>", "link": ...}}]}`. -/
def prBullet (pr_url : String) : NotionBlock :=
  ⟨"bulleted_list_item", ["PR: " ++ pr_url]⟩

/-- The script's dedup scan: some `bulleted_list_item` child has a rich
text fragment containing the PR URL. -/
def hasPrLink (children : List NotionBlock) (pr_url : String) : Bool :=
  children.any fun b =>
    b.type == "bulleted_list_item" && b.richTexts.any fun t => strContains t pr_url

/-- `notion_append_pr_bullet`: returns the updated child list and whether
a new block was written. -/
def notion_append_pr_bullet (children : List NotionBlock) (pr_url : String) :
    List NotionBlock × Bool :=
  if hasPrLink children pr_url then (children, false)
  else (children ++ [prBullet pr_url], true)

theorem hasPrLink_after_write (children : List NotionBlock) (pr_url : String) :
    hasPrLink (children ++ [prBullet pr_url]) pr_url = true := by
  have hsub : pr_url.data <:+: 'P' :: 'R' :: ':' :: ' ' :: pr_url.data :=
    (List.suffix_append ['P', 'R', ':', ' '] pr_url.data).isInfix
  simp [hasPrLink, prBullet, strContains]
  exact Or.inr hsub

/-- C5: the annotator is idempotent — on a record whose children do not
yet mention the back-reference URL, the first call appends exactly one
new block and reports a write; a second call that observes the children
written by the first finds the URL as a substring of the written
fragment and performs no write, leaving the children unchanged. -/
theorem notion_append_pr_bullet_idempotent (children : List NotionBlock) (pr_url : String)
    (hfresh : hasPrLink children pr_url = false) :
    notion_append_pr_bullet children pr_url = (children ++ [prBullet pr_url], true) ∧
    notion_append_pr_bullet (children ++ [prBullet pr_url]) pr_url =
      (children ++ [prBullet pr_url], false) := by
  constructor
  · unfold notion_append_pr_bullet
    rw [hfresh]
    simp
  · unfold notion_append_pr_bullet
    rw [hasPrLink_after_write]
    simp

/-- Witness for C5 at a concrete record state and PR URL. -/
theorem notion_append_pr_bullet_idempotent_witness :
    notion_append_pr_bullet [⟨"paragraph", ["Task description"]⟩]
        "https://github.com/SuperAppLabsCo/axon-ui/pull/108" =
      ([⟨"paragraph", ["Task description"]⟩,
        ⟨"bulleted_list_item", ["PR: https://github.com/SuperAppLabsCo/axon-ui/pull/108"]⟩],
       true) ∧
    notion_append_pr_bullet
        [⟨"paragraph", ["Task description"]⟩,
         ⟨"bulleted_list_item", ["PR: https://github.com/SuperAppLabsCo/axon-ui/pull/108"]⟩]
        "https://github.com/SuperAppLabsCo/axon-ui/pull/108" =
      ([⟨"paragraph", ["Task description"]⟩,
        ⟨"bulleted_list_item", ["PR: https://github.com/SuperAppLabsCo/axon-ui/pull/108"]⟩],
       false) := by
  have h := notion_append_pr_bullet_idempotent [⟨"paragraph", ["Task description"]⟩]
    "https://github.com/SuperAppLabsCo/axon-ui/pull/108" (by decide)
  exact ⟨h.1, h.2⟩

/-! ### Record resolution and merging (`main` of the Python script)

`main` resolves Notion pages from direct links via
`page_id_from_notion_url` and from task ids via `notion_search_page`
(whose network search is abstracted by an oracle returning the id of the
first page-type result, if any), collects `(page_id, url)` pairs — link
pairs first, then search pairs — and de-duplicates them through a Python
dict keyed by page id (insertion-ordered, last writer wins for the
value). -/

/-- The leftmost-match attempt of `re.search(r"([0-9a-fA-F]\x7b32\x7d)(?:\?|#|/|$)", url)`
at the current position: 32 hex chars followed by `?`, `#`, `/` or the
end of the string. -/
def try32HexAt (l : List Char) : Option (List Char) :=
  let h := l.take 32
  if h.length = 32 && h.all isHexChar then
    match l.drop 32 with
    | [] => some h
    | c :: _ => if c = '?' || c = '#' || c = '/' then some h else none
  else none

/-- Leftmost match of the 32-hex-run pattern (Python `re.search`). -/
def findFirst32Hex : List Char → Option (List Char)
  | [] => none
  | c :: cs =>
    match try32HexAt (c :: cs) with
    | some h => some h
    | none => findFirst32Hex cs

/-- `page_id_from_notion_url`: extract the first 32-hex chunk of the URL,
lower-case it, and hyphenate it. -/
def page_id_from_notion_url (url : String) : Option String :=
  (findFirst32Hex url.data).map fun h =>
    ensure_uuid_hyphens (String.mk (h.map Char.toLower))

/-- The script's synthesized viewable URL for a page id:
`f"https://www.notion.so/\x7bpage_id.replace('-', '')\x7d"`. -/
def synthNotionUrl (pid : String) : String :=
  "https://www.notion.so/" ++ String.mk (stripHyphens pid)

/-- `notion_search_page`, with the POST to `/search` abstracted by
`searchFirstId`, the id of the first page-type result for the query
(`none` when `results` is empty). -/
def notion_search_page (searchFirstId : String → Option String) (query : String) :
    Option (String × String) :=
  (searchFirstId query).map fun pid => (pid, synthNotionUrl pid)

/-- One `uniq[pid] = url` step on an insertion-ordered association list
(Python dict semantics: replacing a present key keeps its position,
a new key is appended). -/
def dictInsert (acc : List (String × String)) (k v : String) : List (String × String) :=
  if acc.any fun p => decide (p.1 = k) then
    acc.map fun p => if p.1 = k then (k, v) else p
  else acc ++ [(k, v)]

/-- `uniq` built by iterating `uniq[pid] = url` over the pairs. -/
def dedupPages (ps : List (String × String)) : List (String × String) :=
  ps.foldl (fun acc p => dictInsert acc p.1 p.2) []

/-- The `(pid, link)` pairs from direct links (first loop of `main`). -/
def pagesFromLinks (links : List String) : List (String × String) :=
  links.filterMap fun l => (page_id_from_notion_url l).map fun pid => (pid, l)

/-- The `(page_id, public_url)` pairs from task-id searches (second loop). -/
def pagesFromSearch (searchFirstId : String → Option String) (tids : List String) :
    List (String × String) :=
  tids.filterMap fun tid => notion_search_page searchFirstId tid

/-- The de-duplicated page list `main` passes to annotation and dispatch. -/
def resolvePages (searchFirstId : String → Option String) (links tids : List String) :
    List (String × String) :=
  dedupPages (pagesFromLinks links ++ pagesFromSearch searchFirstId tids)

/-- A concrete direct link whose 32-hex id decodes to the same record the
search oracle returns. -/
def cexLink : String := "https://www.notion.so/Tasks-ci-cd-25b6cafc5b5c801fba02ea17d3cc4b77"

/-- A concrete search oracle: the query TASK-3374 finds the same page id. -/
def cexOracle : String → Option String := fun q =>
  if q = "TASK-3374" then some "25b6cafc-5b5c-801f-ba02-ea17d3cc4b77" else none

/-- C6 (counterexample): when a direct link and a short-code search
resolve to the same canonical id, the merged pair carries the URL
synthesized from the search result, NOT the direct-link URL — the search
pair is inserted after the link pair and the dict merge is
last-writer-wins on the value. -/
theorem resolvePages_drops_direct_url :
    resolvePages cexOracle [cexLink] ["TASK-3374"] =
      [("25b6cafc-5b5c-801f-ba02-ea17d3cc4b77",
        "https://www.notion.so/25b6cafc5b5c801fba02ea17d3cc4b77")] ∧
    "https://www.notion.so/25b6cafc5b5c801fba02ea17d3cc4b77" ≠ cexLink := by
  constructor
  · decide
  · decide

/-- C6 (amended): when a direct-link reference and a short-code search
reference resolve to the same canonical record id, the merged record
retains the URL synthesized from the search result id (the later write),
overwriting the direct-link URL. -/
theorem resolvePages_retains_search_url (link tid pid : String)
    (oracle : String → Option String)
    (hlink : page_id_from_notion_url link = some pid)
    (hsearch : oracle tid = some pid) :
    resolvePages oracle [link] [tid] = [(pid, synthNotionUrl pid)] := by
  simp [resolvePages, pagesFromLinks, pagesFromSearch, notion_search_page,
    hlink, hsearch, dedupPages, dictInsert]

/-- Witness for C6 (amended) at the concrete link, task id and oracle. -/
theorem resolvePages_retains_search_url_witness :
    resolvePages cexOracle [cexLink] ["TASK-3374"] =
      [("25b6cafc-5b5c-801f-ba02-ea17d3cc4b77",
        synthNotionUrl "25b6cafc-5b5c-801f-ba02-ea17d3cc4b77")] :=
  resolvePages_retains_search_url cexLink "TASK-3374"
    "25b6cafc-5b5c-801f-ba02-ea17d3cc4b77" cexOracle (by decide) (by decide)

/-! ### Dict-merge key lemmas (Python dict semantics) -/

theorem dictInsert_keys_pos (acc : List (String × String)) (k v : String)
    (h : (acc.any fun p => decide (p.1 = k)) = true) :
    (dictInsert acc k v).map Prod.fst = acc.map Prod.fst := by
  unfold dictInsert
  rw [if_pos h, List.map_map]
  apply List.map_congr_left
  intro p _
  simp only [Function.comp_apply]
  split
  · next hp => rw [← hp]
  · rfl

theorem dictInsert_keys_neg (acc : List (String × String)) (k v : String)
    (h : (acc.any fun p => decide (p.1 = k)) = false) :
    (dictInsert acc k v).map Prod.fst = acc.map Prod.fst ++ [k] := by
  unfold dictInsert
  rw [if_neg (by simp [h]), List.map_append]
  rfl

theorem key_mem_of_any (acc : List (String × String)) (k : String)
    (h : (acc.any fun p => decide (p.1 = k)) = true) : k ∈ acc.map Prod.fst := by
  obtain ⟨p, hp, hpk⟩ := List.any_eq_true.mp h
  rw [decide_eq_true_eq] at hpk
  exact hpk ▸ List.mem_map_of_mem Prod.fst hp

theorem key_not_mem_of_not_any (acc : List (String × String)) (k : String)
    (h : (acc.any fun p => decide (p.1 = k)) = false) : k ∉ acc.map Prod.fst := by
  intro hmem
  obtain ⟨p, hp, hpk⟩ := List.mem_map.mp hmem
  have : (acc.any fun p => decide (p.1 = k)) = true :=
    List.any_eq_true.mpr ⟨p, hp, decide_eq_true hpk⟩
  rw [h] at this
  exact Bool.false_ne_true this

theorem dedup_foldl_keys_nodup (ps : List (String × String)) :
    ∀ acc : List (String × String), (acc.map Prod.fst).Nodup →
      ((ps.foldl (fun a p => dictInsert a p.1 p.2) acc).map Prod.fst).Nodup := by
  induction ps with
  | nil => intro acc h; exact h
  | cons p ps ih =>
    intro acc h
    simp only [List.foldl_cons]
    apply ih
    by_cases hc : (acc.any fun q => decide (q.1 = p.1)) = true
    · rw [dictInsert_keys_pos _ _ _ hc]; exact h
    · have hc' := Bool.eq_false_iff.mpr hc
      rw [dictInsert_keys_neg _ _ _ hc']
      rw [List.nodup_append]
      refine ⟨h, List.nodup_singleton _, ?_⟩
      intro a ha hb
      rw [List.mem_singleton] at hb
      subst hb
      exact key_not_mem_of_not_any _ _ hc' ha

theorem dedup_foldl_keys_mem (ps : List (String × String)) :
    ∀ (acc : List (String × String)) (k : String),
      (k ∈ (ps.foldl (fun a p => dictInsert a p.1 p.2) acc).map Prod.fst) ↔
        k ∈ acc.map Prod.fst ∨ k ∈ ps.map Prod.fst := by
  induction ps with
  | nil => intro acc k; simp
  | cons p ps ih =>
    intro acc k
    simp only [List.foldl_cons, List.map_cons, List.mem_cons]
    rw [ih]
    by_cases hc : (acc.any fun q => decide (q.1 = p.1)) = true
    · rw [dictInsert_keys_pos _ _ _ hc]
      have hp1 := key_mem_of_any _ _ hc
      constructor
      · rintro (h | h)
        · exact Or.inl h
        · exact Or.inr (Or.inr h)
      · rintro (h | h | h)
        · exact Or.inl h
        · exact Or.inl (h ▸ hp1)
        · exact Or.inr h
    · have hc' := Bool.eq_false_iff.mpr hc
      rw [dictInsert_keys_neg _ _ _ hc']
      rw [List.mem_append, List.mem_singleton]
      tauto

theorem dedupPages_keys_nodup (ps : List (String × String)) :
    ((dedupPages ps).map Prod.fst).Nodup :=
  dedup_foldl_keys_nodup ps [] (by simp)

theorem dedupPages_keys_mem (ps : List (String × String)) (k : String) :
    k ∈ (dedupPages ps).map Prod.fst ↔ k ∈ ps.map Prod.fst := by
  rw [dedupPages, dedup_foldl_keys_mem]
  simp

/-! ### Canonical-id lemmas -/

/-- Modelled from the spec: the canonical form of a record id — the
lower-cased, hyphen-stripped value re-hyphenated 8-4-4-4-12 when it is a
32-hex id.  Used only to state the claims about merging by canonical id. -/
def canonicalOf (s : String) : String :=
  ensure_uuid_hyphens (String.mk (s.data.map Char.toLower))

theorem reassemble32 (s : List Char) (hlen : s.length = 32) :
    s.take 8 ++ ((s.drop 8).take 4 ++ ((s.drop 12).take 4 ++
      ((s.drop 16).take 4 ++ (s.drop 20).take 12))) = s := by
  have h20 : (s.drop 20).take 12 = s.drop 20 :=
    List.take_of_length_le (by simp [hlen])
  have d16 : (s.drop 16).drop 4 = s.drop 20 := by
    rw [List.drop_drop]
  have d12 : (s.drop 12).drop 4 = s.drop 16 := by
    rw [List.drop_drop]
  have d8 : (s.drop 8).drop 4 = s.drop 12 := by
    rw [List.drop_drop]
  rw [h20, ← d16, List.take_append_drop, ← d12, List.take_append_drop,
    ← d8, List.take_append_drop, List.take_append_drop]

theorem ensure_of_hex32 (s : List Char) (hlen : s.length = 32)
    (hhex : s.all isHexChar = true) :
    ensure_uuid_hyphens (String.mk s) =
      String.mk (s.take 8 ++ '-' :: ((s.drop 8).take 4 ++ '-' :: ((s.drop 12).take 4 ++
        '-' :: ((s.drop 16).take 4 ++ '-' :: (s.drop 20).take 12)))) := by
  have hne : ∀ c ∈ s, decide (c ≠ '-') = true := fun c hc =>
    decide_eq_true (isHexChar_ne_hyphen (List.all_eq_true.mp hhex c hc))
  have hstrip : stripHyphens (String.mk s) = s := by
    unfold stripHyphens
    exact List.filter_eq_self.mpr hne
  simp only [ensure_uuid_hyphens, hstrip]
  rw [if_pos ⟨hlen, hhex⟩]

theorem strip_hyphenated (s : List Char) (hhex : s.all isHexChar = true) :
    stripHyphens (String.mk (s.take 8 ++ '-' :: ((s.drop 8).take 4 ++ '-' ::
      ((s.drop 12).take 4 ++ '-' :: ((s.drop 16).take 4 ++ '-' ::
        (s.drop 20).take 12))))) =
      s.take 8 ++ ((s.drop 8).take 4 ++ ((s.drop 12).take 4 ++
        ((s.drop 16).take 4 ++ (s.drop 20).take 12))) := by
  have hne : ∀ c ∈ s, decide (c ≠ '-') = true := fun c hc =>
    decide_eq_true (isHexChar_ne_hyphen (List.all_eq_true.mp hhex c hc))
  have hfil : ∀ t : List Char, t ⊆ s → t.filter (fun c => decide (c ≠ '-')) = t :=
    fun t ht => List.filter_eq_self.mpr fun c hc => hne c (ht hc)
  have hdash : (decide (('-' : Char) ≠ '-')) = false := by decide
  unfold stripHyphens
  show List.filter _ _ = _
  simp only [List.filter_append, List.filter_cons, hdash, if_false, Bool.false_eq_true,
    if_neg (Bool.false_ne_true)]
  rw [hfil _ (List.take_subset 8 s),
    hfil _ (Trans.trans (List.take_subset 4 (s.drop 8)) (List.drop_subset 8 s)),
    hfil _ (Trans.trans (List.take_subset 4 (s.drop 12)) (List.drop_subset 12 s)),
    hfil _ (Trans.trans (List.take_subset 4 (s.drop 16)) (List.drop_subset 16 s)),
    hfil _ (Trans.trans (List.take_subset 12 (s.drop 20)) (List.drop_subset 20 s))]

theorem map_toLower_hyphenated (s : List Char) (hlow : ∀ c ∈ s, c.toLower = c) :
    (s.take 8 ++ '-' :: ((s.drop 8).take 4 ++ '-' :: ((s.drop 12).take 4 ++
      '-' :: ((s.drop 16).take 4 ++ '-' :: (s.drop 20).take 12)))).map Char.toLower =
    s.take 8 ++ '-' :: ((s.drop 8).take 4 ++ '-' :: ((s.drop 12).take 4 ++
      '-' :: ((s.drop 16).take 4 ++ '-' :: (s.drop 20).take 12))) := by
  have hid : ∀ t : List Char, t ⊆ s → t.map Char.toLower = t := by
    intro t ht
    have := List.map_congr_left (fun c hc => hlow c (ht hc))
    simpa using this
  have hdash : Char.toLower '-' = '-' := by decide
  simp only [List.map_append, List.map_cons, hdash]
  rw [hid _ (List.take_subset 8 s),
    hid _ (Trans.trans (List.take_subset 4 (s.drop 8)) (List.drop_subset 8 s)),
    hid _ (Trans.trans (List.take_subset 4 (s.drop 12)) (List.drop_subset 12 s)),
    hid _ (Trans.trans (List.take_subset 4 (s.drop 16)) (List.drop_subset 16 s)),
    hid _ (Trans.trans (List.take_subset 12 (s.drop 20)) (List.drop_subset 20 s))]

theorem try32HexAt_spec {l hx : List Char} (ht : try32HexAt l = some hx) :
    hx.length = 32 ∧ hx.all isHexChar = true := by
  simp only [try32HexAt] at ht
  split at ht
  · next hc =>
    rw [Bool.and_eq_true, decide_eq_true_eq] at hc
    split at ht
    · cases ht
      exact ⟨hc.1, hc.2⟩
    · split at ht
      · cases ht
        exact ⟨hc.1, hc.2⟩
      · cases ht
  · cases ht

theorem findFirst32Hex_spec : ∀ (l hx : List Char), findFirst32Hex l = some hx →
    hx.length = 32 ∧ hx.all isHexChar = true := by
  intro l
  induction l with
  | nil => intro hx hh; simp [findFirst32Hex] at hh
  | cons c cs ih =>
    intro hx hh
    simp only [findFirst32Hex] at hh
    split at hh
    · next h2 heq =>
      cases hh
      exact try32HexAt_spec heq
    · exact ih hx hh

theorem canonicalOf_page_id {url pid : String}
    (h : page_id_from_notion_url url = some pid) : canonicalOf pid = pid := by
  unfold page_id_from_notion_url at h
  obtain ⟨hh, hfind, hpid⟩ := Option.map_eq_some'.mp h
  obtain ⟨hlen32, hhex0⟩ := findFirst32Hex_spec _ _ hfind
  set s : List Char := hh.map Char.toLower with hs
  have hslen : s.length = 32 := by rw [hs, List.length_map]; exact hlen32
  have hshex : s.all isHexChar = true := by
    rw [hs, List.all_map]
    rw [List.all_eq_true] at hhex0 ⊢
    intro c hc
    exact isHexChar_toLower (hhex0 c hc)
  have hslow : ∀ c ∈ s, c.toLower = c := by
    intro c hc
    rw [hs] at hc
    obtain ⟨c0, _, hc0⟩ := List.mem_map.mp hc
    rw [← hc0]
    exact toLower_idem c0
  have hpid2 : pid = String.mk (s.take 8 ++ '-' :: ((s.drop 8).take 4 ++ '-' ::
      ((s.drop 12).take 4 ++ '-' :: ((s.drop 16).take 4 ++ '-' :: (s.drop 20).take 12)))) := by
    rw [← hpid]
    exact ensure_of_hex32 s hslen hshex
  rw [hpid2]
  unfold canonicalOf
  have hmap := map_toLower_hyphenated s hslow
  show ensure_uuid_hyphens (String.mk ((s.take 8 ++ '-' :: ((s.drop 8).take 4 ++ '-' ::
      ((s.drop 12).take 4 ++ '-' :: ((s.drop 16).take 4 ++ '-' ::
        (s.drop 20).take 12)))).map Char.toLower)) = _
  rw [hmap]
  have hstrip : stripHyphens (String.mk (s.take 8 ++ '-' :: ((s.drop 8).take 4 ++ '-' ::
      ((s.drop 12).take 4 ++ '-' :: ((s.drop 16).take 4 ++ '-' ::
        (s.drop 20).take 12))))) = s := by
    rw [strip_hyphenated s hshex, reassemble32 s hslen]
  simp only [ensure_uuid_hyphens, hstrip]
  rw [if_pos ⟨hslen, hshex⟩]

/-- C7: every reference that resolves — whether via direct URL decoding or
via remote search — contributes its id to the merged list, the merged
list has no two entries with the same id, and (assuming the search oracle
returns ids already in canonical hyphenated form, as the Notion API does)
every merged id is in canonical form, so the list passed to annotation
and dispatch has exactly one entry per canonical record id. -/
theorem resolvePages_one_per_canonical_id
    (links tids : List String) (oracle : String → Option String)
    (horacle : ∀ tid pid, oracle tid = some pid → canonicalOf pid = pid) :
    ((resolvePages oracle links tids).map Prod.fst).Nodup ∧
    (∀ k, k ∈ (resolvePages oracle links tids).map Prod.fst ↔
      k ∈ (pagesFromLinks links ++ pagesFromSearch oracle tids).map Prod.fst) ∧
    (∀ k ∈ (resolvePages oracle links tids).map Prod.fst, canonicalOf k = k) := by
  refine ⟨dedupPages_keys_nodup _, fun k => dedupPages_keys_mem _ k, ?_⟩
  intro k hk
  unfold resolvePages at hk
  rw [dedupPages_keys_mem] at hk
  rw [List.map_append, List.mem_append] at hk
  cases hk with
  | inl h =>
    obtain ⟨p, hp, hpk⟩ := List.mem_map.mp h
    obtain ⟨l, _, hpl⟩ := List.mem_filterMap.mp hp
    obtain ⟨pid, hpidl, hpair⟩ := Option.map_eq_some'.mp hpl
    rw [← hpk, ← hpair]
    exact canonicalOf_page_id hpidl
  | inr h =>
    obtain ⟨p, hp, hpk⟩ := List.mem_map.mp h
    obtain ⟨tid, _, hps⟩ := List.mem_filterMap.mp hp
    unfold notion_search_page at hps
    obtain ⟨pid, hpids, hpair⟩ := Option.map_eq_some'.mp hps
    rw [← hpk, ← hpair]
    exact horacle tid pid hpids

/-- Witness for C7: a duplicate pair of references (direct link and
search hit for the same record) merges to a single canonical entry. -/
theorem resolvePages_one_per_canonical_id_witness :
    ((resolvePages cexOracle [cexLink] ["TASK-3374"]).map Prod.fst).Nodup ∧
    ((resolvePages cexOracle [cexLink] ["TASK-3374"]).map Prod.fst =
      ["25b6cafc-5b5c-801f-ba02-ea17d3cc4b77"]) := by
  have horacle : ∀ tid pid, cexOracle tid = some pid → canonicalOf pid = pid := by
    intro tid pid h
    by_cases ht : tid = "TASK-3374"
    · rw [cexOracle, if_pos ht] at h
      cases h
      decide
    · rw [cexOracle, if_neg ht] at h
      cases h
  exact ⟨(resolvePages_one_per_canonical_id [cexLink] ["TASK-3374"] cexOracle horacle).1,
    by decide⟩

/-! ### The task-code scanner

Embedding of the regexes `/\b(?:SPR|TASK)-\d+\b/i` (workers) and
`re.compile(rf"\b\x7bre.escape(TASK_PREFIX)\x7d-\d+\b", re.IGNORECASE)` (Python
script), over character lists.  `tryTaskAt` attempts the alternatives in
source order at one position (the alternatives are mutually exclusive on
their first character, so this equals regex backtracking); the scanner
tries each position whose preceding character is not a word character
(the leading `\b`; every alternative starts with a word character), takes
the maximal digit run, and requires a non-word character or the end of
input after it (the trailing `\b`, which cannot be rescued by
backtracking since shrinking the digit run exposes a digit). Matches are
non-overlapping and scanning resumes after each match, as with
`finditer`. -/

/-- Case-insensitive literal match: strips `p` (case-insensitively) from
the front of `l`, returning the matched original characters and the rest. -/
def stripPfxCI : List Char → List Char → Option (List Char × List Char)
  | [], l => some ([], l)
  | _ :: _, [] => none
  | p :: ps, c :: cs =>
    if p.toLower = c.toLower then
      match stripPfxCI ps cs with
      | some (m, r) => some (c :: m, r)
      | none => none
    else none

theorem stripPfxCI_length : ∀ (p l m r : List Char), stripPfxCI p l = some (m, r) →
    l.length = p.length + r.length := by
  intro p
  induction p with
  | nil =>
    intro l m r h
    simp only [stripPfxCI, Option.some.injEq, Prod.mk.injEq] at h
    rw [← h.2]
    simp
  | cons p ps ih =>
    intro l m r h
    cases l with
    | nil => simp [stripPfxCI] at h
    | cons c cs =>
      cases hrec : stripPfxCI ps cs with
      | none =>
        simp only [stripPfxCI, hrec] at h
        split at h
        · cases h
        · cases h
      | some mr =>
        obtain ⟨m1, r1⟩ := mr
        simp only [stripPfxCI, hrec] at h
        split at h
        · cases h
          have := ih cs m1 _ hrec
          simp only [List.length_cons, this]
          omega
        · cases h

/-- The trailing `\b` of the task regex: satisfied at the end of input or
before a non-word character. -/
def tailBoundaryOk : List Char → Bool
  | [] => true
  | c :: _ => !(isWordChar c)

/-- One match attempt of `(?:ALT1|ALT2|...)-\d+` (with the trailing `\b`
check) at the head of `l`, trying the alternatives in order; returns the
matched characters and the remaining input. -/
def tryTaskAt (pfxs : List (List Char)) (l : List Char) : Option (List Char × List Char) :=
  match pfxs with
  | [] => none
  | pfx :: rest =>
    match stripPfxCI (pfx ++ ['-']) l with
    | none => tryTaskAt rest l
    | some (m1, r1) =>
      if r1.takeWhile isDigitChar = [] then tryTaskAt rest l
      else if tailBoundaryOk (r1.dropWhile isDigitChar) then
        some (m1 ++ r1.takeWhile isDigitChar, r1.dropWhile isDigitChar)
      else tryTaskAt rest l

theorem tryTaskAt_rest_length : ∀ (pfxs : List (List Char)) (l m r : List Char),
    tryTaskAt pfxs l = some (m, r) → r.length < l.length := by
  intro pfxs
  induction pfxs with
  | nil => intro l m r h; simp [tryTaskAt] at h
  | cons pfx rest ih =>
    intro l m r h
    cases hstrip : stripPfxCI (pfx ++ ['-']) l with
    | none =>
      simp only [tryTaskAt, hstrip] at h
      exact ih l m r h
    | some mr =>
      obtain ⟨m1, r1⟩ := mr
      simp only [tryTaskAt, hstrip] at h
      have hlen := stripPfxCI_length _ _ _ _ hstrip
      simp only [List.length_append, List.length_cons, List.length_nil] at hlen
      by_cases hds : r1.takeWhile isDigitChar = []
      · rw [if_pos hds] at h
        exact ih l m r h
      · rw [if_neg hds] at h
        by_cases hb : tailBoundaryOk (r1.dropWhile isDigitChar) = true
        · rw [if_pos hb] at h
          cases h
          have hsplit : (r1.takeWhile isDigitChar).length +
              (r1.dropWhile isDigitChar).length = r1.length := by
            conv_rhs => rw [← List.takeWhile_append_dropWhile (p := isDigitChar) (l := r1)]
            rw [List.length_append]
          have hds1 : 0 < (r1.takeWhile isDigitChar).length :=
            List.length_pos.mpr hds
          omega
        · rw [if_neg hb] at h
          exact ih l m r h

/-- Fuel-driven finditer loop for the task regex: at each position whose
previous character is not a word character, attempt a match; on success
emit it and resume after the match (the last matched character is a
digit, hence a word character); otherwise advance one character.  The
fuel only serves structural recursion; `scanTasks` supplies enough. -/
def scanTasksF (pfxs : List (List Char)) : Nat → Bool → List Char → List (List Char)
  | 0, _, _ => []
  | _ + 1, _, [] => []
  | fuel + 1, prevW, c :: rest =>
    if prevW then scanTasksF pfxs fuel (isWordChar c) rest
    else
      match tryTaskAt pfxs (c :: rest) with
      | some (m, r) => m :: scanTasksF pfxs fuel true r
      | none => scanTasksF pfxs fuel (isWordChar c) rest

theorem scanTasksF_irrel (pfxs : List (List Char)) :
    ∀ (n : Nat) (cs : List Char) (f1 f2 : Nat), cs.length ≤ n → cs.length ≤ f1 →
      cs.length ≤ f2 → ∀ prevW, scanTasksF pfxs f1 prevW cs = scanTasksF pfxs f2 prevW cs := by
  intro n
  induction n with
  | zero =>
    intro cs f1 f2 hn _ _ prevW
    have hcs : cs = [] := List.length_eq_zero.mp (Nat.le_zero.mp hn)
    subst hcs
    cases f1 <;> cases f2 <;> rfl
  | succ n ih =>
    intro cs f1 f2 hn h1 h2 prevW
    cases cs with
    | nil => cases f1 <;> cases f2 <;> rfl
    | cons c rest =>
      simp only [List.length_cons] at hn h1 h2
      cases f1 with
      | zero => omega
      | succ f1 =>
        cases f2 with
        | zero => omega
        | succ f2 =>
          simp only [scanTasksF]
          by_cases hw : prevW = true
          · rw [if_pos hw, if_pos hw]
            exact ih rest f1 f2 (by omega) (by omega) (by omega) _
          · rw [if_neg hw, if_neg hw]
            cases htry : tryTaskAt pfxs (c :: rest) with
            | some mr =>
              obtain ⟨m, r⟩ := mr
              have hr := tryTaskAt_rest_length _ _ _ _ htry
              simp only [List.length_cons] at hr
              show m :: scanTasksF pfxs f1 true r = m :: scanTasksF pfxs f2 true r
              congr 1
              exact ih r f1 f2 (by omega) (by omega) (by omega) _
            | none =>
              show scanTasksF pfxs f1 (isWordChar c) rest =
                scanTasksF pfxs f2 (isWordChar c) rest
              exact ih rest f1 f2 (by omega) (by omega) (by omega) _

/-- The full match list of the task regex over `cs` (`finditer`);
`prevW` says whether the character before `cs` is a word character. -/
def scanTasks (pfxs : List (List Char)) (prevW : Bool) (cs : List Char) : List (List Char) :=
  scanTasksF pfxs cs.length prevW cs

theorem scanTasks_cons (pfxs : List (List Char)) (prevW : Bool) (c : Char) (cs : List Char) :
    scanTasks pfxs prevW (c :: cs) =
      if prevW then scanTasks pfxs (isWordChar c) cs
      else
        match tryTaskAt pfxs (c :: cs) with
        | some (m, r) => m :: scanTasks pfxs true r
        | none => scanTasks pfxs (isWordChar c) cs := by
  show scanTasksF pfxs (cs.length + 1) prevW (c :: cs) = _
  simp only [scanTasksF]
  by_cases hw : prevW = true
  · rw [if_pos hw, if_pos hw]
    rfl
  · rw [if_neg hw, if_neg hw]
    cases htry : tryTaskAt pfxs (c :: cs) with
    | some mr =>
      obtain ⟨m, r⟩ := mr
      show m :: scanTasksF pfxs cs.length true r = m :: scanTasks pfxs true r
      congr 1
      have hr := tryTaskAt_rest_length _ _ _ _ htry
      simp only [List.length_cons] at hr
      exact scanTasksF_irrel pfxs cs.length r cs.length r.length (by omega) (by omega)
        (le_refl _) true
    | none =>
      rfl

/-- First match of the task regex (`str.match` without the global flag). -/
def firstTask (pfxs : List (List Char)) (l : List Char) : Option (List Char) :=
  (scanTasks pfxs false l).head?

/-- The workers' task regex alternatives `(?:SPR|TASK)`. -/
def workerTaskPfxs : List (List Char) := ["SPR".data, "TASK".data]

/-- Lower-casing over characters (JavaScript `toLowerCase`, Python
`str.lower`, ASCII range). -/
def toLowerStr (s : String) : String := String.mk (s.data.map Char.toLower)

/-- The workers' task-id extraction:
`const idMatch = (gitRef + " " + commitMessage).match(TASK_REGEX);
 const taskId = idMatch ? idMatch[0].toUpperCase() : "";`. -/
def taskIdOf (gitRef commitMessage : String) : String :=
  match firstTask workerTaskPfxs (gitRef.data ++ ' ' :: commitMessage.data) with
  | some m => String.mk (m.map Char.toUpper)
  | none => ""

/-! ### JSON values, JavaScript truthiness, and the two worker handlers -/

/-- A parsed JSON value (the inbound webhook payload). -/
inductive JVal where
  | null
  | bool (b : Bool)
  | num (n : Int)
  | str (s : String)
  | arr (xs : List JVal)
  | obj (fields : List (String × JVal))

/-- JavaScript truthiness of a defined value. -/
def jtruthy : JVal → Bool
  | .null => false
  | .bool b => b
  | .num n => decide (n ≠ 0)
  | .str s => decide (s ≠ "")
  | .arr _ => true
  | .obj _ => true

/-- Optional-chained property access `v?.k` (undefined on non-objects). -/
def jget : JVal → String → Option JVal
  | .obj fields, k => List.lookup k fields
  | _, _ => none

/-- Chained access `o?.k` when `o` may already be undefined. -/
def jchain (o : Option JVal) (k : String) : Option JVal :=
  match o with
  | some v => jget v k
  | none => none

/-- `a || b || ... || "dflt"` over possibly-undefined JSON values. -/
def firstTruthy : List (Option JVal) → String → JVal
  | [], d => .str d
  | a :: rest, d =>
    match a with
    | some v => if jtruthy v then v else firstTruthy rest d
    | none => firstTruthy rest d

/-- JavaScript string coercion as used in template interpolation.  The
theorems only exercise string-valued fields; for arrays the JS coercion
joins the elements (approximated), and the extended worker would throw a
TypeError on `.toLowerCase()` of any non-string profile value (excluded
by hypothesis in the profile theorems). -/
def jvalToStr : JVal → String
  | .str s => s
  | .num n => toString n
  | .bool true => "true"
  | .bool false => "false"
  | .null => "null"
  | .arr _ => ""
  | .obj _ => "[object Object]"

/-- Truthiness of an optional environment string (`if (env.X)`). -/
def strTruthy : Option String → Bool
  | none => false
  | some s => decide (s ≠ "")

/-- `envVar || "default"`. -/
def strOrD : Option String → String → String
  | some s, d => if s = "" then d else s
  | none, d => d

/-- `a || b || ''` over two optional header values. -/
def strOr2 (a b : Option String) : String :=
  if strTruthy a then a.getD "" else if strTruthy b then b.getD "" else ""

/-- The JSON bodies the handlers construct for their responses, by shape. -/
inductive RespBody where
  | empty
  | errMsg (error : String)
  | errDetail (error detail : String)
  | notFound (error path : String)
  | okMode (mode : String)
  | okRoute (route : String)
deriving DecidableEq

/-- An inbound HTTP request.  `bodyJson` is the result of `JSON.parse` on
the raw body (`none` when parsing throws); the HMAC digests of the raw
body are supplied by the `World` oracle. -/
structure HReq where
  method : String
  path : String
  header : String → Option String
  rawBody : String
  bodyJson : Option JVal

/-- The worker environment bindings (`type Env`). -/
structure WEnv where
  SLACK_WEBHOOK_URL : Option String
  NOTION_TOKEN : Option String
  EXPO_WEBHOOK_SECRET : Option String
  DISPATCH_TO_GITHUB : Option String
  GH_OWNER : Option String
  GH_REPO : Option String
  GH_REPO_DISPATCH_TOKEN : Option String

/-- Oracle for everything outside the handler: the crypto digests of this
request's raw body under the configured secret, and the outcomes of the
outbound HTTP calls (a thrown fetch or JSON parse on the Notion lookup is
subsumed by `notionOk = false` / `notionFirstId = none`). -/
structure World where
  hmacB64 : String
  hmacs : Hmacs
  notionOk : Bool
  notionFirstId : Option String
  ghOk : Bool
  ghStatus : Nat
  ghText : String
  slackOk : Bool
  slackText : String

/-- The outbound calls a handler run performs, in order. -/
inductive OutCall where
  | notionSearch (query : String)
  | githubDispatch (owner repo : String)
  | slackPost (hook text : String)
deriving DecidableEq

/-- Observable outcome of one handler run: HTTP status, response body,
outbound call trace, and whether the JSON body was parsed. -/
structure HResult where
  status : Nat
  body : RespBody
  calls : List OutCall
  parsedJson : Bool
deriving DecidableEq

/-- `body?.status || body?.event || "unknown"`. -/
def bodyStatusJ (body : JVal) : JVal :=
  firstTruthy [jget body "status", jget body "event"] "unknown"

/-- `body?.buildDetailsPageUrl || body?.build?.detailsPageUrl || ""`. -/
def bodyBuildUrlJ (body : JVal) : JVal :=
  firstTruthy [jget body "buildDetailsPageUrl", jchain (jget body "build") "detailsPageUrl"] ""

/-- `body?.gitRef || body?.metadata?.gitRef || body?.metadata?.appVersion || ""`. -/
def bodyGitRefJ (body : JVal) : JVal :=
  firstTruthy [jget body "gitRef", jchain (jget body "metadata") "gitRef",
    jchain (jget body "metadata") "appVersion"] ""

/-- `body?.metadata?.commitMessage || ""` (plain worker). -/
def bodyCommitJ (body : JVal) : JVal :=
  firstTruthy [jchain (jget body "metadata") "commitMessage"] ""

/-- `body?.metadata?.commitMessage || body?.metadata?.gitCommitMessage || ""`
(extended worker). -/
def extCommitJ (body : JVal) : JVal :=
  firstTruthy [jchain (jget body "metadata") "commitMessage",
    jchain (jget body "metadata") "gitCommitMessage"] ""

/-- `body?.metadata?.buildProfile || body?.metadata?.appBuildProfile ||
body?.metadata?.profile || 'unknown'` (extended worker). -/
def extProfileJ (body : JVal) : JVal :=
  firstTruthy [jchain (jget body "metadata") "buildProfile",
    jchain (jget body "metadata") "appBuildProfile",
    jchain (jget body "metadata") "profile"] "unknown"

/-- `https://www.notion.so/` followed by the id with hyphens removed. -/
def notionUrlOf (pageId : String) : String :=
  "https://www.notion.so/" ++ String.mk (stripHyphens pageId)

/-- The first Slack message builder (`worker.ts` lines 94-98). -/
def workerSlackText (statusJ gitRefJ buildUrlJ commitJ : JVal)
    (taskId notionUrl : String) : String :=
  let t0 := "🚀 *Preview build* " ++ jvalToStr statusJ
  let t1 := if jtruthy gitRefJ then t0 ++ " on `" ++ jvalToStr gitRefJ ++ "`" else t0
  let t2 := if jtruthy buildUrlJ then t1 ++ "\n📱 " ++ jvalToStr buildUrlJ else t1
  let t3 := if taskId ≠ "" then
      t2 ++ "\n🔗 Task: " ++ taskId ++ (if notionUrl ≠ "" then " • " ++ notionUrl else "")
    else t2
  if jtruthy commitJ then t3 ++ "\n📝 " ++ jvalToStr commitJ else t3

/-- The extended worker's Slack message builder (part_000 lines 768-773). -/
def extSlackText (statusJ gitRefJ buildUrlJ commitJ profileJ : JVal)
    (taskId notionUrl : String) : String :=
  let t0 := "🚀 Preview build " ++ jvalToStr statusJ
  let t1 := if jtruthy gitRefJ then t0 ++ " on `" ++ jvalToStr gitRefJ ++ "`" else t0
  let t2 := if jtruthy buildUrlJ then t1 ++ "\n📱 " ++ jvalToStr buildUrlJ else t1
  let t3 := if taskId ≠ "" then
      t2 ++ "\n🔗 Task: " ++ taskId ++ (if notionUrl ≠ "" then " • " ++ notionUrl else "")
    else t2
  let t4 := if jtruthy commitJ then t3 ++ "\n📝 " ++ jvalToStr commitJ else t3
  t4 ++ "\n🧪 Profile: " ++ jvalToStr profileJ

/-- The `fetch` handler of `src/src/worker.ts`: method check, optional
signature verification (before any body parsing or outbound call), lenient
JSON parsing, task-id extraction, optional Notion lookup, then exactly one
of GitHub repository-dispatch or Slack notification. -/
def workerFetch (req : HReq) (env : WEnv) (w : World) : HResult :=
  if req.method ≠ "POST" then
    ⟨405, .errMsg "Method Not Allowed", [], false⟩
  else if strTruthy env.EXPO_WEBHOOK_SECRET = true ∧
      verifyHmacSha1Base64 ((req.header "expo-signature").getD "") w.hmacB64 = false then
    ⟨401, .errMsg "Invalid signature", [], false⟩
  else
    let body := req.bodyJson.getD (.obj [])
    let taskId := taskIdOf (jvalToStr (bodyGitRefJ body)) (jvalToStr (bodyCommitJ body))
    let doNotion := (taskId != "") && strTruthy env.NOTION_TOKEN
    let notionCalls := if doNotion then [OutCall.notionSearch taskId] else []
    let notionUrl :=
      if doNotion then
        if w.notionOk then
          match w.notionFirstId with
          | some pageId => notionUrlOf pageId
          | none => ""
        else ""
      else ""
    if toLowerStr ((env.DISPATCH_TO_GITHUB).getD "") = "true" then
      if strTruthy env.GH_REPO_DISPATCH_TOKEN = false then
        ⟨500, .errMsg "GH_REPO_DISPATCH_TOKEN missing", notionCalls, true⟩
      else
        let calls := notionCalls ++ [OutCall.githubDispatch
          (strOrD env.GH_OWNER "SuperAppLabsCo") (strOrD env.GH_REPO "axon-ui")]
        if w.ghOk = false then
          ⟨w.ghStatus, .errDetail "GitHub dispatch failed" w.ghText, calls, true⟩
        else
          ⟨200, .okMode "github", calls, true⟩
    else
      if strTruthy env.SLACK_WEBHOOK_URL = false then
        ⟨500, .errMsg "SLACK_WEBHOOK_URL missing", notionCalls, true⟩
      else
        let text := workerSlackText (bodyStatusJ body) (bodyGitRefJ body)
          (bodyBuildUrlJ body) (bodyCommitJ body) taskId notionUrl
        let calls := notionCalls ++ [OutCall.slackPost ((env.SLACK_WEBHOOK_URL).getD "") text]
        if w.slackOk = false then
          ⟨500, .errDetail "Slack error" w.slackText, calls, true⟩
        else
          ⟨200, .okMode "slack", calls, true⟩

/-- The extended worker's routed paths. -/
def extHandledPaths : List String := ["/", "/api/expo-webhook"]

/-- `request.headers.get('expo-signature') || request.headers.get('Expo-Signature') || ''`. -/
def extSigHeader (req : HReq) : String :=
  strOr2 (req.header "expo-signature") (req.header "Expo-Signature")

/-- The extended worker's `fetch` (part_000 lines 613-788): path routing,
GET health check, method check, raw body read, multi-digest signature
verification, lenient parse, profile filter (only `preview` proceeds,
anything else is a 204 no-op), task extraction, optional Notion lookup,
then GitHub dispatch or Slack. -/
def extFetch (req : HReq) (env : WEnv) (w : World) : HResult :=
  if ¬ (req.path ∈ extHandledPaths) then
    ⟨404, .notFound "Not Found" req.path, [], false⟩
  else if req.method = "GET" then
    ⟨200, .okRoute req.path, [], false⟩
  else if req.method ≠ "POST" then
    ⟨405, .errMsg "Method Not Allowed", [], false⟩
  else if strTruthy env.EXPO_WEBHOOK_SECRET = true ∧
      sigMatchOk (providedOf (extSigHeader req)) w.hmacs = false then
    ⟨401, .errMsg "Invalid signature", [], false⟩
  else
    let body := req.bodyJson.getD (.obj [])
    if toLowerStr (jvalToStr (extProfileJ body)) ≠ "preview" then
      ⟨204, .empty, [], true⟩
    else
      let taskId := taskIdOf (jvalToStr (bodyGitRefJ body)) (jvalToStr (extCommitJ body))
      let doNotion := (taskId != "") && strTruthy env.NOTION_TOKEN
      let notionCalls := if doNotion then [OutCall.notionSearch taskId] else []
      let notionUrl :=
        if doNotion then
          match w.notionFirstId with
          | some pageId => notionUrlOf pageId
          | none => ""
        else ""
      if toLowerStr ((env.DISPATCH_TO_GITHUB).getD "") = "true" then
        if strTruthy env.GH_REPO_DISPATCH_TOKEN = false then
          ⟨500, .errMsg "GH_REPO_DISPATCH_TOKEN missing", notionCalls, true⟩
        else
          let calls := notionCalls ++ [OutCall.githubDispatch
            (strOrD env.GH_OWNER "SuperAppLabsCo") (strOrD env.GH_REPO "axon-ui")]
          if w.ghOk = false then
            ⟨w.ghStatus, .errDetail "GitHub dispatch failed" w.ghText, calls, true⟩
          else
            ⟨200, .okMode "github", calls, true⟩
      else
        if strTruthy env.SLACK_WEBHOOK_URL = false then
          ⟨500, .errMsg "SLACK_WEBHOOK_URL missing", notionCalls, true⟩
        else
          let text := extSlackText (bodyStatusJ body) (bodyGitRefJ body)
            (bodyBuildUrlJ body) (extCommitJ body) (extProfileJ body) taskId notionUrl
          let calls := notionCalls ++ [OutCall.slackPost ((env.SLACK_WEBHOOK_URL).getD "") text]
          if w.slackOk = false then
            ⟨500, .errDetail "Slack error" w.slackText, calls, true⟩
          else
            ⟨200, .okMode "slack", calls, true⟩

/-- C2: for every POST request where a webhook secret is configured and
the signature check fails (the absent-header case is exercised in the
witness), both handlers respond 401, never parse the body as JSON, and
make no outbound call — external state is unchanged on authentication
failure. -/
theorem auth_failure_no_side_effects (req : HReq) (env : WEnv) (w : World)
    (hm : req.method = "POST")
    (hsec : strTruthy env.EXPO_WEBHOOK_SECRET = true) :
    (verifyHmacSha1Base64 ((req.header "expo-signature").getD "") w.hmacB64 = false →
      workerFetch req env w = ⟨401, .errMsg "Invalid signature", [], false⟩) ∧
    (req.path ∈ extHandledPaths →
      sigMatchOk (providedOf (extSigHeader req)) w.hmacs = false →
      extFetch req env w = ⟨401, .errMsg "Invalid signature", [], false⟩) := by
  constructor
  · intro hv
    unfold workerFetch
    rw [if_neg (by rw [hm]; decide), if_pos ⟨hsec, hv⟩]
  · intro hpath hv
    unfold extFetch
    rw [if_neg (not_not_intro hpath), if_neg (by rw [hm]; decide),
      if_neg (by rw [hm]; decide), if_pos ⟨hsec, hv⟩]

/-- Concrete request for the C2 witness: POST with NO signature header at
all, while a secret is configured; the expected digests are non-empty, so
the length check alone already fails both verifiers. -/
def c2req : HReq :=
  ⟨"POST", "/api/expo-webhook", fun _ => none, "", some (.obj [])⟩

def c2env : WEnv := ⟨none, none, some "shh", none, none, none, none⟩

def c2w : World :=
  ⟨"ebVWoy3UAaCMAcCv1mLs1jcmY/s=", ⟨⟨"A1", "A2"⟩, ⟨"B1", "B2"⟩⟩,
    false, none, false, 0, "", false, ""⟩

/-- Witness for C2 at a concrete absent-header request. -/
theorem auth_failure_no_side_effects_witness :
    workerFetch c2req c2env c2w = ⟨401, .errMsg "Invalid signature", [], false⟩ ∧
    extFetch c2req c2env c2w = ⟨401, .errMsg "Invalid signature", [], false⟩ := by
  have h := auth_failure_no_side_effects c2req c2env c2w rfl (by decide)
  exact ⟨h.1 (by decide), h.2 (by decide) (by decide)⟩

/-- C9: for every verified (or unsecured) POST on a routed path whose
declared build profile — a string field, defaulting to "unknown" when
absent — does not equal "preview" after lower-casing, the extended worker
responds 204 with an empty body, makes no outbound call, and stops before
task extraction, resolution and dispatch. -/
theorem profile_mismatch_skips (req : HReq) (env : WEnv) (w : World)
    (hpath : req.path ∈ extHandledPaths)
    (hm : req.method = "POST")
    (hauth : strTruthy env.EXPO_WEBHOOK_SECRET = false ∨
      sigMatchOk (providedOf (extSigHeader req)) w.hmacs = true)
    (p : String)
    (hstr : extProfileJ (req.bodyJson.getD (.obj [])) = .str p)
    (hmismatch : toLowerStr p ≠ "preview") :
    extFetch req env w = ⟨204, .empty, [], true⟩ := by
  have hA : ¬ (strTruthy env.EXPO_WEBHOOK_SECRET = true ∧
      sigMatchOk (providedOf (extSigHeader req)) w.hmacs = false) := by
    rcases hauth with ha | ha
    · intro hc
      rw [ha] at hc
      exact absurd hc.1 (by decide)
    · intro hc
      rw [ha] at hc
      exact absurd hc.2 (by decide)
  unfold extFetch
  rw [if_neg (not_not_intro hpath), if_neg (by rw [hm]; decide),
    if_neg (by rw [hm]; decide), if_neg hA]
  simp only [hstr]
  rw [if_pos (show toLowerStr (jvalToStr (JVal.str p)) ≠ "preview" from hmismatch)]

/-- Concrete request for the C9 witness: empty JSON body, so the profile
defaults to "unknown", which does not match "preview". -/
def c9req : HReq := ⟨"POST", "/", fun _ => none, "{}", some (.obj [])⟩

def c9env : WEnv :=
  ⟨some "https://hooks.slack.example/T000/B000", some "ntn_token", none, none, none,
    none, some "ghp_token"⟩

def c9w : World :=
  ⟨"", ⟨⟨"", ""⟩, ⟨"", ""⟩⟩, true, some "25b6cafc-5b5c-801f-ba02-ea17d3cc4b77",
    true, 204, "", true, ""⟩

/-- Witness for C9: the empty body defaults the profile to "unknown" and
the handler responds 204 with no calls. -/
theorem profile_mismatch_skips_witness :
    extFetch c9req c9env c9w = ⟨204, .empty, [], true⟩ :=
  profile_mismatch_skips c9req c9env c9w (by decide) rfl (Or.inl (by decide))
    "unknown" rfl (by decide)

/-- C4 (amended): every dispatch failure is surfaced, never swallowed —
on a Slack failure the response is a 500 carrying the error and the
upstream text; on a GitHub dispatch failure the response carries the
error and the upstream text but MIRRORS the upstream HTTP status
(`gh.status`) instead of always using 500. -/
theorem dispatch_failure_surfaced (req : HReq) (env : WEnv) (w : World)
    (hm : req.method = "POST")
    (hauth : strTruthy env.EXPO_WEBHOOK_SECRET = false ∨
      verifyHmacSha1Base64 ((req.header "expo-signature").getD "") w.hmacB64 = true) :
    (toLowerStr ((env.DISPATCH_TO_GITHUB).getD "") = "true" →
     strTruthy env.GH_REPO_DISPATCH_TOKEN = true →
     w.ghOk = false →
      (workerFetch req env w).status = w.ghStatus ∧
      (workerFetch req env w).body = .errDetail "GitHub dispatch failed" w.ghText) ∧
    (toLowerStr ((env.DISPATCH_TO_GITHUB).getD "") ≠ "true" →
     strTruthy env.SLACK_WEBHOOK_URL = true →
     w.slackOk = false →
      (workerFetch req env w).status = 500 ∧
      (workerFetch req env w).body = .errDetail "Slack error" w.slackText) := by
  have hA : ¬ (strTruthy env.EXPO_WEBHOOK_SECRET = true ∧
      verifyHmacSha1Base64 ((req.header "expo-signature").getD "") w.hmacB64 = false) := by
    rcases hauth with ha | ha
    · intro hc
      rw [ha] at hc
      exact absurd hc.1 (by decide)
    · intro hc
      rw [ha] at hc
      exact absurd hc.2 (by decide)
  constructor
  · intro hgh htok hgho
    constructor <;>
      simp [workerFetch, hm, hA, hgh, htok, hgho]
  · intro hgh hslack hslo
    constructor <;>
      simp [workerFetch, hm, hA, hgh, hslack, hslo]

/-- Concrete GitHub-mode setup for the C4 counterexample and witness. -/
def c4req : HReq := ⟨"POST", "/", fun _ => none, "{}", some (.obj [])⟩

def c4env : WEnv := ⟨none, none, none, some "true", none, none, some "ghp_tok"⟩

def c4w : World :=
  ⟨"", ⟨⟨"", ""⟩, ⟨"", ""⟩⟩, false, none, false, 404, "Not Found", true, ""⟩

/-- C4 (counterexample): a failed GitHub re-dispatch (upstream 404) makes
the handler answer with status 404 — not 500 as the claim states — while
still carrying the explicit error and upstream text. -/
theorem github_dispatch_failure_not_500 :
    workerFetch c4req c4env c4w =
      ⟨404, .errDetail "GitHub dispatch failed" "Not Found",
        [OutCall.githubDispatch "SuperAppLabsCo" "axon-ui"], true⟩ ∧
    (404 : Nat) ≠ 500 := by
  constructor
  · decide
  · decide

/-- Concrete Slack-mode setup for the C4 witness. -/
def c4envSlack : WEnv :=
  ⟨some "https://hooks.slack.example/T000/B000", none, none, none, none, none, none⟩

def c4wSlack : World :=
  ⟨"", ⟨⟨"", ""⟩, ⟨"", ""⟩⟩, false, none, true, 200, "", false, "invalid_payload"⟩

/-- Witness for C4 (amended), exercising both failure branches at
concrete inputs. -/
theorem dispatch_failure_surfaced_witness :
    ((workerFetch c4req c4env c4w).status = (404 : Nat) ∧
      (workerFetch c4req c4env c4w).body =
        .errDetail "GitHub dispatch failed" "Not Found") ∧
    ((workerFetch c4req c4envSlack c4wSlack).status = 500 ∧
      (workerFetch c4req c4envSlack c4wSlack).body =
        .errDetail "Slack error" "invalid_payload") := by
  constructor
  · exact (dispatch_failure_surfaced c4req c4env c4w rfl (Or.inl (by decide))).1
      (by decide) (by decide) rfl
  · exact (dispatch_failure_surfaced c4req c4envSlack c4wSlack rfl
      (Or.inl (by decide))).2 (by decide) (by decide) rfl

/-! ### `parse_task_refs` (Python script) — groundwork

The split lemmas below show that scanning the `"\n".join(...)` of the
three PR fields equals the concatenation of the per-field scans: no
match of either regex can cross the `\n` separator, and the separator
restores a non-word left context. -/

theorem all_of_dropWhile_eq_nil {p : Char → Bool} {l : List Char}
    (h : l.dropWhile p = []) : ∀ x ∈ l, p x = true := by
  intro x hx
  have hmem : x ∈ l.takeWhile p := by
    have htd := List.takeWhile_append_dropWhile (p := p) (l := l)
    rw [h, List.append_nil] at htd
    rw [htd]
    exact hx
  exact List.mem_takeWhile_imp hmem

theorem head_dropWhile_false {p : Char → Bool} {l r : List Char} {c : Char}
    (h : l.dropWhile p = c :: r) : p c = false := by
  induction l with
  | nil => simp [List.dropWhile] at h
  | cons a as ih =>
    rw [List.dropWhile_cons] at h
    split at h
    · exact ih h
    · next hp =>
      cases h
      simpa using hp

theorem stripPfxCI_some_append : ∀ (p l m r ext : List Char),
    stripPfxCI p l = some (m, r) → stripPfxCI p (l ++ ext) = some (m, r ++ ext) := by
  intro p
  induction p with
  | nil =>
    intro l m r ext h
    simp only [stripPfxCI, Option.some.injEq, Prod.mk.injEq] at h ⊢
    exact ⟨h.1, by rw [← h.2]⟩
  | cons p ps ih =>
    intro l m r ext h
    cases l with
    | nil => simp [stripPfxCI] at h
    | cons c cs =>
      cases hrec : stripPfxCI ps cs with
      | none =>
        simp only [stripPfxCI, hrec] at h
        split at h <;> simp at h
      | some mr =>
        obtain ⟨m1, r1⟩ := mr
        simp only [stripPfxCI, hrec] at h
        split at h
        · next hc =>
          cases h
          rw [List.cons_append]
          simp only [stripPfxCI, ih cs m1 _ ext hrec]
          rw [if_pos hc]
        · cases h

theorem stripPfxCI_none_append : ∀ (p l t : List Char),
    (∀ c ∈ p, c.toLower ≠ '\n') → stripPfxCI p l = none →
      stripPfxCI p (l ++ '\n' :: t) = none := by
  intro p
  induction p with
  | nil => intro l t _ h; simp [stripPfxCI] at h
  | cons p ps ih =>
    intro l t hp h
    cases l with
    | nil =>
      rw [List.nil_append]
      simp only [stripPfxCI]
      have hne : ¬ (p.toLower = '\n'.toLower) := fun hc =>
        hp p (List.mem_cons_self p ps) (hc.trans (by decide))
      rw [if_neg hne]
    | cons c cs =>
      rw [List.cons_append]
      by_cases hc : p.toLower = c.toLower
      · simp only [stripPfxCI] at h
        rw [if_pos hc] at h
        simp only [stripPfxCI]
        rw [if_pos hc]
        cases hrec : stripPfxCI ps cs with
        | none =>
          have h2 := ih cs t (fun d hd => hp d (List.mem_cons_of_mem _ hd)) hrec
          rw [h2]
        | some mr =>
          rw [hrec] at h
          obtain ⟨m1, r1⟩ := mr
          simp at h
      · simp only [stripPfxCI]
        rw [if_neg hc]

theorem takeWhile_append_nl {p : Char → Bool} (hnl : p '\n' = false) (l t : List Char) :
    (l ++ '\n' :: t).takeWhile p = l.takeWhile p := by
  have h2 : (l.dropWhile p ++ '\n' :: t).takeWhile p = [] := by
    cases hdw : l.dropWhile p with
    | nil =>
      rw [List.nil_append, List.takeWhile_cons]
      simp [hnl]
    | cons c cs =>
      rw [List.cons_append, List.takeWhile_cons]
      simp [head_dropWhile_false hdw]
  calc (l ++ '\n' :: t).takeWhile p
      = (l.takeWhile p ++ (l.dropWhile p ++ '\n' :: t)).takeWhile p := by
        rw [← List.append_assoc, List.takeWhile_append_dropWhile]
    _ = l.takeWhile p ++ (l.dropWhile p ++ '\n' :: t).takeWhile p :=
        List.takeWhile_append_of_pos fun x hx => List.mem_takeWhile_imp hx
    _ = l.takeWhile p := by rw [h2, List.append_nil]

theorem dropWhile_append_nl {p : Char → Bool} (hnl : p '\n' = false) (l t : List Char) :
    (l ++ '\n' :: t).dropWhile p = l.dropWhile p ++ '\n' :: t := by
  have h2 : (l.dropWhile p ++ '\n' :: t).dropWhile p = l.dropWhile p ++ '\n' :: t := by
    cases hdw : l.dropWhile p with
    | nil =>
      rw [List.nil_append, List.dropWhile_cons]
      simp [hnl]
    | cons c cs =>
      rw [List.cons_append, List.dropWhile_cons]
      simp [head_dropWhile_false hdw]
  calc (l ++ '\n' :: t).dropWhile p
      = (l.takeWhile p ++ (l.dropWhile p ++ '\n' :: t)).dropWhile p := by
        rw [← List.append_assoc, List.takeWhile_append_dropWhile]
    _ = (l.dropWhile p ++ '\n' :: t).dropWhile p :=
        List.dropWhile_append_of_pos fun x hx => List.mem_takeWhile_imp hx
    _ = l.dropWhile p ++ '\n' :: t := h2

theorem tailBoundaryOk_append_nl {l t : List Char} :
    tailBoundaryOk (l ++ '\n' :: t) = tailBoundaryOk l ∨ l = [] := by
  cases l with
  | nil => exact Or.inr rfl
  | cons c cs => exact Or.inl rfl

theorem isDigitChar_nl : isDigitChar '\n' = false := by decide

theorem tryTaskAt_some_append : ∀ (pfxs : List (List Char)) (l m r t : List Char),
    (∀ pfx ∈ pfxs, ∀ c ∈ pfx ++ ['-'], c.toLower ≠ '\n') →
    tryTaskAt pfxs l = some (m, r) →
    tryTaskAt pfxs (l ++ '\n' :: t) = some (m, r ++ '\n' :: t) := by
  intro pfxs
  induction pfxs with
  | nil => intro l m r t _ h; simp [tryTaskAt] at h
  | cons pfx rest ih =>
    intro l m r t hp h
    have hpr : ∀ q ∈ rest, ∀ c ∈ q ++ ['-'], c.toLower ≠ '\n' :=
      fun q hq => hp q (List.mem_cons_of_mem _ hq)
    cases hstrip : stripPfxCI (pfx ++ ['-']) l with
    | none =>
      have hs2 := stripPfxCI_none_append (pfx ++ ['-']) l t
        (hp pfx (List.mem_cons_self _ _)) hstrip
      simp only [tryTaskAt, hstrip] at h
      simp only [tryTaskAt, hs2]
      exact ih l m r t hpr h
    | some mr =>
      obtain ⟨m1, r1⟩ := mr
      have hs2 := stripPfxCI_some_append (pfx ++ ['-']) l m1 r1 ('\n' :: t) hstrip
      simp only [tryTaskAt, hstrip] at h
      simp only [tryTaskAt, hs2]
      rw [takeWhile_append_nl isDigitChar_nl, dropWhile_append_nl isDigitChar_nl]
      by_cases hds : r1.takeWhile isDigitChar = []
      · rw [if_pos hds] at h ⊢
        exact ih l m r t hpr h
      · rw [if_neg hds] at h ⊢
        by_cases hb : tailBoundaryOk (r1.dropWhile isDigitChar) = true
        · rw [if_pos hb] at h
          cases h
          have hb2 : tailBoundaryOk (r1.dropWhile isDigitChar ++ '\n' :: t) = true := by
            rcases tailBoundaryOk_append_nl
              (l := r1.dropWhile isDigitChar) (t := t) with he | he
            · rw [he]; exact hb
            · rw [he]
              show !(isWordChar '\n') = true
              decide
          rw [if_pos hb2]
        · rw [if_neg hb] at h
          have hb2 : ¬ tailBoundaryOk (r1.dropWhile isDigitChar ++ '\n' :: t) = true := by
            rcases tailBoundaryOk_append_nl
              (l := r1.dropWhile isDigitChar) (t := t) with he | he
            · rw [he]; exact hb
            · exact absurd (he ▸ rfl : tailBoundaryOk (r1.dropWhile isDigitChar) = true) hb
          rw [if_neg hb2]
          exact ih l m r t hpr h

theorem tryTaskAt_none_append : ∀ (pfxs : List (List Char)) (l t : List Char),
    (∀ pfx ∈ pfxs, ∀ c ∈ pfx ++ ['-'], c.toLower ≠ '\n') →
    tryTaskAt pfxs l = none →
    tryTaskAt pfxs (l ++ '\n' :: t) = none := by
  intro pfxs
  induction pfxs with
  | nil => intro l t _ _; simp [tryTaskAt]
  | cons pfx rest ih =>
    intro l t hp h
    have hpr : ∀ q ∈ rest, ∀ c ∈ q ++ ['-'], c.toLower ≠ '\n' :=
      fun q hq => hp q (List.mem_cons_of_mem _ hq)
    cases hstrip : stripPfxCI (pfx ++ ['-']) l with
    | none =>
      have hs2 := stripPfxCI_none_append (pfx ++ ['-']) l t
        (hp pfx (List.mem_cons_self _ _)) hstrip
      simp only [tryTaskAt, hstrip] at h
      simp only [tryTaskAt, hs2]
      exact ih l t hpr h
    | some mr =>
      obtain ⟨m1, r1⟩ := mr
      have hs2 := stripPfxCI_some_append (pfx ++ ['-']) l m1 r1 ('\n' :: t) hstrip
      simp only [tryTaskAt, hstrip] at h
      simp only [tryTaskAt, hs2]
      rw [takeWhile_append_nl isDigitChar_nl, dropWhile_append_nl isDigitChar_nl]
      by_cases hds : r1.takeWhile isDigitChar = []
      · rw [if_pos hds] at h ⊢
        exact ih l t hpr h
      · rw [if_neg hds] at h ⊢
        by_cases hb : tailBoundaryOk (r1.dropWhile isDigitChar) = true
        · rw [if_pos hb] at h
          cases h
        · rw [if_neg hb] at h
          have hb2 : ¬ tailBoundaryOk (r1.dropWhile isDigitChar ++ '\n' :: t) = true := by
            rcases tailBoundaryOk_append_nl
              (l := r1.dropWhile isDigitChar) (t := t) with he | he
            · rw [he]; exact hb
            · exact absurd (he ▸ rfl : tailBoundaryOk (r1.dropWhile isDigitChar) = true) hb
          rw [if_neg hb2]
          exact ih l t hpr h

theorem tryTaskAt_nl_head : ∀ (pfxs : List (List Char)),
    (∀ pfx ∈ pfxs, ∀ c ∈ pfx ++ ['-'], c.toLower ≠ '\n') → ∀ t,
    tryTaskAt pfxs ('\n' :: t) = none := by
  intro pfxs
  induction pfxs with
  | nil => intro _ t; simp [tryTaskAt]
  | cons pfx rest ih =>
    intro hp t
    have hstrip : stripPfxCI (pfx ++ ['-']) ('\n' :: t) = none := by
      cases hpp : pfx ++ ['-'] with
      | nil => exact absurd hpp (by simp)
      | cons p ps =>
        simp only [stripPfxCI]
        have hmem : p ∈ pfx ++ ['-'] := by rw [hpp]; exact List.mem_cons_self _ _
        have hne : ¬ (p.toLower = '\n'.toLower) := fun hc =>
          hp pfx (List.mem_cons_self _ _) p hmem (hc.trans (by decide))
        rw [if_neg hne]
    simp only [tryTaskAt, hstrip]
    exact ih (fun q hq => hp q (List.mem_cons_of_mem _ hq)) t

theorem scanTasks_nl_cons (pfxs : List (List Char))
    (hp : ∀ pfx ∈ pfxs, ∀ c ∈ pfx ++ ['-'], c.toLower ≠ '\n') (t : List Char) (prevW : Bool) :
    scanTasks pfxs prevW ('\n' :: t) = scanTasks pfxs false t := by
  have h1 : isWordChar '\n' = false := by decide
  rw [scanTasks_cons]
  by_cases hw : prevW = true
  · rw [if_pos hw, h1]
  · rw [if_neg hw, tryTaskAt_nl_head pfxs hp t, h1]

theorem scanTasks_append_nl (pfxs : List (List Char))
    (hp : ∀ pfx ∈ pfxs, ∀ c ∈ pfx ++ ['-'], c.toLower ≠ '\n') :
    ∀ (n : Nat) (s : List Char), s.length ≤ n → ∀ (t : List Char) (prevW : Bool),
      scanTasks pfxs prevW (s ++ '\n' :: t) =
        scanTasks pfxs prevW s ++ scanTasks pfxs false t := by
  intro n
  induction n with
  | zero =>
    intro s hs t prevW
    have h0 : s = [] := List.length_eq_zero.mp (Nat.le_zero.mp hs)
    subst h0
    rw [List.nil_append]
    exact scanTasks_nl_cons pfxs hp t prevW
  | succ n ih =>
    intro s hs t prevW
    cases s with
    | nil =>
      rw [List.nil_append]
      exact scanTasks_nl_cons pfxs hp t prevW
    | cons c cs =>
      simp only [List.length_cons] at hs
      rw [List.cons_append, scanTasks_cons, scanTasks_cons]
      by_cases hw : prevW = true
      · rw [if_pos hw, if_pos hw]
        exact ih cs (by omega) t (isWordChar c)
      · rw [if_neg hw, if_neg hw]
        cases htry : tryTaskAt pfxs (c :: cs) with
        | some mr =>
          obtain ⟨m, r⟩ := mr
          have htry2 := tryTaskAt_some_append pfxs (c :: cs) m r t hp htry
          rw [List.cons_append] at htry2
          rw [htry2]
          show m :: scanTasks pfxs true (r ++ '\n' :: t) =
            (m :: scanTasks pfxs true r) ++ scanTasks pfxs false t
          rw [List.cons_append]
          have hr := tryTaskAt_rest_length _ _ _ _ htry
          simp only [List.length_cons] at hr
          rw [ih r (by omega) t true]
        | none =>
          have htry2 := tryTaskAt_none_append pfxs (c :: cs) t hp htry
          rw [List.cons_append] at htry2
          rw [htry2]
          show scanTasks pfxs (isWordChar c) (cs ++ '\n' :: t) =
            scanTasks pfxs (isWordChar c) cs ++ scanTasks pfxs false t
          exact ih cs (by omega) t (isWordChar c)

/-! ### The Notion-URL scanner

Embedding of `NOTION_URL_REGEX = https?://(www\.)?notion\.so/[^\s)>\]]+`
(case-sensitive, no boundary assertions).  The optional parts are
deterministic: taking `s` requires the literal `s` and taking `www.`
requires the literal `www.`, and in both cases the following required
literal could not match the skipped text, so no backtracking case is
lost.  `parse_task_refs` returns `m.group(0)` of each `finditer` match. -/

/-- Python `\s` for text patterns: ASCII whitespace plus the Unicode
whitespace code points. -/
def isPySpace (c : Char) : Bool :=
  c = ' ' || c = '\t' || c = '\n' || c.toNat = 11 || c.toNat = 12 || c = '\r' ||
  c.toNat = 28 || c.toNat = 29 || c.toNat = 30 || c.toNat = 31 || c.toNat = 133 ||
  c.toNat = 160 || c.toNat = 5760 || (8192 ≤ c.toNat && c.toNat ≤ 8202) ||
  c.toNat = 8232 || c.toNat = 8233 || c.toNat = 8239 || c.toNat = 8287 ||
  c.toNat = 12288

/-- The char class `[^\s)>\]]` ending a matched URL. -/
def urlBodyChar (c : Char) : Bool :=
  !(isPySpace c || c = ')' || c = '>' || c = ']')

/-- Case-sensitive literal match, returning the rest of the input. -/
def stripLit : List Char → List Char → Option (List Char)
  | [], l => some l
  | _ :: _, [] => none
  | p :: ps, c :: cs => if c = p then stripLit ps cs else none

def httpLit : List Char := "http".data

def schemeSepLit : List Char := "://".data

def wwwLit : List Char := "www.".data

def notionLit : List Char := "notion.so/".data

/-- The `[^\s)>\]]+` tail: at least one body character, greedy. -/
def tryUrlTail (pre l5 : List Char) : Option (List Char × List Char) :=
  if l5.takeWhile urlBodyChar = [] then none
  else some (pre ++ l5.takeWhile urlBodyChar, l5.dropWhile urlBodyChar)

/-- `(www\.)?notion\.so/` followed by the tail. -/
def tryUrlHost (pre : List Char) (l3 : List Char) : Option (List Char × List Char) :=
  match stripLit wwwLit l3 with
  | some l4 =>
    match stripLit notionLit l4 with
    | some l5 => tryUrlTail (pre ++ wwwLit ++ notionLit) l5
    | none => none
  | none =>
    match stripLit notionLit l3 with
    | some l5 => tryUrlTail (pre ++ notionLit) l5
    | none => none

/-- `https?://` followed by the host part: one match attempt of the URL
regex at the head of `l`.  The optional `s` is consumed exactly when
present (`stripLit ['s']`), which equals the regex backtracking
behaviour because `://` can never start at an `s`. -/
def tryUrlScheme (l : List Char) : Option (List Char × List Char) :=
  match stripLit httpLit l with
  | none => none
  | some l1 =>
    match stripLit ['s'] l1 with
    | some r1 =>
      match stripLit schemeSepLit r1 with
      | some l3 => tryUrlHost (httpLit ++ ['s'] ++ schemeSepLit) l3
      | none => none
    | none =>
      match stripLit schemeSepLit l1 with
      | some l3 => tryUrlHost (httpLit ++ schemeSepLit) l3
      | none => none

theorem stripLit_length : ∀ (p l r : List Char), stripLit p l = some r →
    l.length = p.length + r.length := by
  intro p
  induction p with
  | nil =>
    intro l r h
    simp only [stripLit, Option.some.injEq] at h
    rw [← h]
    simp
  | cons p ps ih =>
    intro l r h
    cases l with
    | nil => simp [stripLit] at h
    | cons c cs =>
      simp only [stripLit] at h
      split at h
      · have := ih cs r h
        simp [this]
        omega
      · cases h

theorem stripLit_some_append : ∀ (p l r ext : List Char), stripLit p l = some r →
    stripLit p (l ++ ext) = some (r ++ ext) := by
  intro p
  induction p with
  | nil =>
    intro l r ext h
    simp only [stripLit, Option.some.injEq] at h ⊢
    rw [← h]
  | cons p ps ih =>
    intro l r ext h
    cases l with
    | nil => simp [stripLit] at h
    | cons c cs =>
      simp only [stripLit] at h
      split at h
      · next hc =>
        rw [List.cons_append]
        simp only [stripLit]
        rw [if_pos hc]
        exact ih cs r ext h
      · cases h

theorem stripLit_none_append : ∀ (p l t : List Char), (∀ c ∈ p, c ≠ '\n') →
    stripLit p l = none → stripLit p (l ++ '\n' :: t) = none := by
  intro p
  induction p with
  | nil => intro l t _ h; simp [stripLit] at h
  | cons p ps ih =>
    intro l t hp h
    cases l with
    | nil =>
      rw [List.nil_append]
      simp only [stripLit]
      rw [if_neg]
      intro hc
      exact hp p (List.mem_cons_self _ _) hc.symm
    | cons c cs =>
      rw [List.cons_append]
      simp only [stripLit] at h ⊢
      split at h
      · next hc =>
        rw [if_pos hc]
        exact ih cs t (fun d hd => hp d (List.mem_cons_of_mem _ hd)) h
      · next hc =>
        rw [if_neg hc]

theorem urlBodyChar_nl : urlBodyChar '\n' = false := by decide

theorem tryUrlTail_some_length {pre l5 m r : List Char}
    (h : tryUrlTail pre l5 = some (m, r)) : r.length < l5.length := by
  unfold tryUrlTail at h
  split at h
  · cases h
  · next hds =>
    cases h
    have hsplit : (l5.takeWhile urlBodyChar).length +
        (l5.dropWhile urlBodyChar).length = l5.length := by
      conv_rhs => rw [← List.takeWhile_append_dropWhile (p := urlBodyChar) (l := l5)]
      rw [List.length_append]
    have hpos : 0 < (l5.takeWhile urlBodyChar).length := List.length_pos.mpr hds
    omega

theorem tryUrlHost_some_length {pre l3 m r : List Char}
    (h : tryUrlHost pre l3 = some (m, r)) : r.length < l3.length := by
  unfold tryUrlHost at h
  split at h
  · next l4 hw =>
    split at h
    · next l5 hn =>
      have := tryUrlTail_some_length h
      have h1 := stripLit_length _ _ _ hw
      have h2 := stripLit_length _ _ _ hn
      omega
    · cases h
  · next hw =>
    split at h
    · next l5 hn =>
      have := tryUrlTail_some_length h
      have h2 := stripLit_length _ _ _ hn
      omega
    · cases h

theorem tryUrlScheme_some_length : ∀ {l m r : List Char},
    tryUrlScheme l = some (m, r) → r.length < l.length := by
  intro l m r h
  unfold tryUrlScheme at h
  split at h
  · cases h
  · next l1 hhttp =>
    have h1 := stripLit_length _ _ _ hhttp
    split at h
    · next r1 hs =>
      have hs1 := stripLit_length _ _ _ hs
      split at h
      · next l3 hsep =>
        have h2 := stripLit_length _ _ _ hsep
        have h3 := tryUrlHost_some_length h
        omega
      · cases h
    · next hs =>
      split at h
      · next l3 hsep =>
        have h2 := stripLit_length _ _ _ hsep
        have h3 := tryUrlHost_some_length h
        omega
      · cases h

theorem tryUrlTail_some_append {pre l5 m r t : List Char}
    (h : tryUrlTail pre l5 = some (m, r)) :
    tryUrlTail pre (l5 ++ '\n' :: t) = some (m, r ++ '\n' :: t) := by
  unfold tryUrlTail at h ⊢
  rw [takeWhile_append_nl urlBodyChar_nl, dropWhile_append_nl urlBodyChar_nl]
  split at h
  · cases h
  · next hds =>
    cases h
    rw [if_neg hds]

theorem tryUrlTail_none_append {pre l5 t : List Char}
    (h : tryUrlTail pre l5 = none) :
    tryUrlTail pre (l5 ++ '\n' :: t) = none := by
  unfold tryUrlTail at h ⊢
  rw [takeWhile_append_nl urlBodyChar_nl]
  split at h
  · next hds => rw [if_pos hds]
  · cases h

theorem wwwLit_no_nl : ∀ c ∈ wwwLit, c ≠ '\n' := by decide

theorem notionLit_no_nl : ∀ c ∈ notionLit, c ≠ '\n' := by decide

theorem schemeSepLit_no_nl : ∀ c ∈ schemeSepLit, c ≠ '\n' := by decide

theorem httpLit_no_nl : ∀ c ∈ httpLit, c ≠ '\n' := by decide

theorem tryUrlHost_some_append {pre l3 m r t : List Char}
    (h : tryUrlHost pre l3 = some (m, r)) :
    tryUrlHost pre (l3 ++ '\n' :: t) = some (m, r ++ '\n' :: t) := by
  unfold tryUrlHost at h
  split at h
  · next l4 hw =>
    split at h
    · next l5 hn =>
      unfold tryUrlHost
      rw [stripLit_some_append _ _ _ _ hw]
      show (match stripLit notionLit (l4 ++ '\n' :: t) with
        | some l5 => tryUrlTail (pre ++ wwwLit ++ notionLit) l5
        | none => none) = some (m, r ++ '\n' :: t)
      rw [stripLit_some_append _ _ _ _ hn]
      show tryUrlTail (pre ++ wwwLit ++ notionLit) (l5 ++ '\n' :: t) =
        some (m, r ++ '\n' :: t)
      exact tryUrlTail_some_append h
    · cases h
  · next hw =>
    split at h
    · next l5 hn =>
      unfold tryUrlHost
      rw [stripLit_none_append _ _ _ wwwLit_no_nl hw]
      show (match stripLit notionLit (l3 ++ '\n' :: t) with
        | some l5 => tryUrlTail (pre ++ notionLit) l5
        | none => none) = some (m, r ++ '\n' :: t)
      rw [stripLit_some_append _ _ _ _ hn]
      show tryUrlTail (pre ++ notionLit) (l5 ++ '\n' :: t) = some (m, r ++ '\n' :: t)
      exact tryUrlTail_some_append h
    · cases h

theorem tryUrlHost_none_append {pre l3 t : List Char}
    (h : tryUrlHost pre l3 = none) :
    tryUrlHost pre (l3 ++ '\n' :: t) = none := by
  unfold tryUrlHost at h
  split at h
  · next l4 hw =>
    split at h
    · next l5 hn =>
      unfold tryUrlHost
      rw [stripLit_some_append _ _ _ _ hw]
      show (match stripLit notionLit (l4 ++ '\n' :: t) with
        | some l5 => tryUrlTail (pre ++ wwwLit ++ notionLit) l5
        | none => none) = none
      rw [stripLit_some_append _ _ _ _ hn]
      show tryUrlTail (pre ++ wwwLit ++ notionLit) (l5 ++ '\n' :: t) = none
      exact tryUrlTail_none_append h
    · next hn =>
      unfold tryUrlHost
      rw [stripLit_some_append _ _ _ _ hw]
      show (match stripLit notionLit (l4 ++ '\n' :: t) with
        | some l5 => tryUrlTail (pre ++ wwwLit ++ notionLit) l5
        | none => none) = none
      rw [stripLit_none_append _ _ _ notionLit_no_nl hn]
  · next hw =>
    split at h
    · next l5 hn =>
      unfold tryUrlHost
      rw [stripLit_none_append _ _ _ wwwLit_no_nl hw]
      show (match stripLit notionLit (l3 ++ '\n' :: t) with
        | some l5 => tryUrlTail (pre ++ notionLit) l5
        | none => none) = none
      rw [stripLit_some_append _ _ _ _ hn]
      show tryUrlTail (pre ++ notionLit) (l5 ++ '\n' :: t) = none
      exact tryUrlTail_none_append h
    · next hn =>
      unfold tryUrlHost
      rw [stripLit_none_append _ _ _ wwwLit_no_nl hw]
      show (match stripLit notionLit (l3 ++ '\n' :: t) with
        | some l5 => tryUrlTail (pre ++ notionLit) l5
        | none => none) = none
      rw [stripLit_none_append _ _ _ notionLit_no_nl hn]

theorem sLit_no_nl : ∀ c ∈ ['s'], c ≠ '\n' := by decide

theorem tryUrlScheme_some_append {l m r t : List Char}
    (h : tryUrlScheme l = some (m, r)) :
    tryUrlScheme (l ++ '\n' :: t) = some (m, r ++ '\n' :: t) := by
  unfold tryUrlScheme at h
  split at h
  · cases h
  · next l1 hhttp =>
    unfold tryUrlScheme
    rw [stripLit_some_append _ _ _ _ hhttp]
    split at h
    · next r1 hs =>
      show (match stripLit ['s'] (l1 ++ '\n' :: t) with
        | some r1 =>
          match stripLit schemeSepLit r1 with
          | some l3 => tryUrlHost (httpLit ++ ['s'] ++ schemeSepLit) l3
          | none => none
        | none =>
          match stripLit schemeSepLit (l1 ++ '\n' :: t) with
          | some l3 => tryUrlHost (httpLit ++ schemeSepLit) l3
          | none => none) = some (m, r ++ '\n' :: t)
      rw [stripLit_some_append _ _ _ _ hs]
      split at h
      · next l3 hsep =>
        show (match stripLit schemeSepLit (r1 ++ '\n' :: t) with
          | some l3 => tryUrlHost (httpLit ++ ['s'] ++ schemeSepLit) l3
          | none => none) = some (m, r ++ '\n' :: t)
        rw [stripLit_some_append _ _ _ _ hsep]
        show tryUrlHost (httpLit ++ ['s'] ++ schemeSepLit) (l3 ++ '\n' :: t) =
          some (m, r ++ '\n' :: t)
        exact tryUrlHost_some_append h
      · cases h
    · next hs =>
      show (match stripLit ['s'] (l1 ++ '\n' :: t) with
        | some r1 =>
          match stripLit schemeSepLit r1 with
          | some l3 => tryUrlHost (httpLit ++ ['s'] ++ schemeSepLit) l3
          | none => none
        | none =>
          match stripLit schemeSepLit (l1 ++ '\n' :: t) with
          | some l3 => tryUrlHost (httpLit ++ schemeSepLit) l3
          | none => none) = some (m, r ++ '\n' :: t)
      rw [stripLit_none_append _ _ _ sLit_no_nl hs]
      split at h
      · next l3 hsep =>
        show (match stripLit schemeSepLit (l1 ++ '\n' :: t) with
          | some l3 => tryUrlHost (httpLit ++ schemeSepLit) l3
          | none => none) = some (m, r ++ '\n' :: t)
        rw [stripLit_some_append _ _ _ _ hsep]
        show tryUrlHost (httpLit ++ schemeSepLit) (l3 ++ '\n' :: t) =
          some (m, r ++ '\n' :: t)
        exact tryUrlHost_some_append h
      · cases h

theorem tryUrlScheme_none_append {l t : List Char}
    (h : tryUrlScheme l = none) :
    tryUrlScheme (l ++ '\n' :: t) = none := by
  unfold tryUrlScheme at h
  split at h
  · next hhttp =>
    unfold tryUrlScheme
    rw [stripLit_none_append _ _ _ httpLit_no_nl hhttp]
  · next l1 hhttp =>
    unfold tryUrlScheme
    rw [stripLit_some_append _ _ _ _ hhttp]
    split at h
    · next r1 hs =>
      show (match stripLit ['s'] (l1 ++ '\n' :: t) with
        | some r1 =>
          match stripLit schemeSepLit r1 with
          | some l3 => tryUrlHost (httpLit ++ ['s'] ++ schemeSepLit) l3
          | none => none
        | none =>
          match stripLit schemeSepLit (l1 ++ '\n' :: t) with
          | some l3 => tryUrlHost (httpLit ++ schemeSepLit) l3
          | none => none) = none
      rw [stripLit_some_append _ _ _ _ hs]
      split at h
      · next l3 hsep =>
        show (match stripLit schemeSepLit (r1 ++ '\n' :: t) with
          | some l3 => tryUrlHost (httpLit ++ ['s'] ++ schemeSepLit) l3
          | none => none) = none
        rw [stripLit_some_append _ _ _ _ hsep]
        show tryUrlHost (httpLit ++ ['s'] ++ schemeSepLit) (l3 ++ '\n' :: t) = none
        exact tryUrlHost_none_append h
      · next hsep =>
        show (match stripLit schemeSepLit (r1 ++ '\n' :: t) with
          | some l3 => tryUrlHost (httpLit ++ ['s'] ++ schemeSepLit) l3
          | none => none) = none
        rw [stripLit_none_append _ _ _ schemeSepLit_no_nl hsep]
    · next hs =>
      show (match stripLit ['s'] (l1 ++ '\n' :: t) with
        | some r1 =>
          match stripLit schemeSepLit r1 with
          | some l3 => tryUrlHost (httpLit ++ ['s'] ++ schemeSepLit) l3
          | none => none
        | none =>
          match stripLit schemeSepLit (l1 ++ '\n' :: t) with
          | some l3 => tryUrlHost (httpLit ++ schemeSepLit) l3
          | none => none) = none
      rw [stripLit_none_append _ _ _ sLit_no_nl hs]
      split at h
      · next l3 hsep =>
        show (match stripLit schemeSepLit (l1 ++ '\n' :: t) with
          | some l3 => tryUrlHost (httpLit ++ schemeSepLit) l3
          | none => none) = none
        rw [stripLit_some_append _ _ _ _ hsep]
        show tryUrlHost (httpLit ++ schemeSepLit) (l3 ++ '\n' :: t) = none
        exact tryUrlHost_none_append h
      · next hsep =>
        show (match stripLit schemeSepLit (l1 ++ '\n' :: t) with
          | some l3 => tryUrlHost (httpLit ++ schemeSepLit) l3
          | none => none) = none
        rw [stripLit_none_append _ _ _ schemeSepLit_no_nl hsep]

theorem tryUrlScheme_nl_head (t : List Char) : tryUrlScheme ('\n' :: t) = none := by
  have hstrip : stripLit httpLit ('\n' :: t) = none := by
    simp only [httpLit, stripLit]
    rw [if_neg (by decide)]
  simp only [tryUrlScheme, hstrip]

/-- Fuel-driven finditer loop for the URL regex (no boundary context). -/
def scanUrlsF : Nat → List Char → List (List Char)
  | 0, _ => []
  | _ + 1, [] => []
  | fuel + 1, c :: rest =>
    match tryUrlScheme (c :: rest) with
    | some (m, r) => m :: scanUrlsF fuel r
    | none => scanUrlsF fuel rest

theorem scanUrlsF_irrel :
    ∀ (n : Nat) (cs : List Char) (f1 f2 : Nat), cs.length ≤ n → cs.length ≤ f1 →
      cs.length ≤ f2 → scanUrlsF f1 cs = scanUrlsF f2 cs := by
  intro n
  induction n with
  | zero =>
    intro cs f1 f2 hn _ _
    have hcs : cs = [] := List.length_eq_zero.mp (Nat.le_zero.mp hn)
    subst hcs
    cases f1 <;> cases f2 <;> rfl
  | succ n ih =>
    intro cs f1 f2 hn h1 h2
    cases cs with
    | nil => cases f1 <;> cases f2 <;> rfl
    | cons c rest =>
      simp only [List.length_cons] at hn h1 h2
      cases f1 with
      | zero => omega
      | succ f1 =>
        cases f2 with
        | zero => omega
        | succ f2 =>
          simp only [scanUrlsF]
          cases htry : tryUrlScheme (c :: rest) with
          | some mr =>
            obtain ⟨m, r⟩ := mr
            have hr := tryUrlScheme_some_length htry
            simp only [List.length_cons] at hr
            show m :: scanUrlsF f1 r = m :: scanUrlsF f2 r
            congr 1
            exact ih r f1 f2 (by omega) (by omega) (by omega)
          | none =>
            show scanUrlsF f1 rest = scanUrlsF f2 rest
            exact ih rest f1 f2 (by omega) (by omega) (by omega)

/-- The full match list of the URL regex over `cs` (`finditer`). -/
def scanUrls (cs : List Char) : List (List Char) :=
  scanUrlsF cs.length cs

theorem scanUrls_cons (c : Char) (cs : List Char) :
    scanUrls (c :: cs) =
      match tryUrlScheme (c :: cs) with
      | some (m, r) => m :: scanUrls r
      | none => scanUrls cs := by
  show scanUrlsF (cs.length + 1) (c :: cs) = _
  simp only [scanUrlsF]
  cases htry : tryUrlScheme (c :: cs) with
  | some mr =>
    obtain ⟨m, r⟩ := mr
    show m :: scanUrlsF cs.length r = m :: scanUrls r
    congr 1
    have hr := tryUrlScheme_some_length htry
    simp only [List.length_cons] at hr
    exact scanUrlsF_irrel cs.length r cs.length r.length (by omega) (by omega) (le_refl _)
  | none => rfl

theorem scanUrls_append_nl :
    ∀ (n : Nat) (s : List Char), s.length ≤ n → ∀ (t : List Char),
      scanUrls (s ++ '\n' :: t) = scanUrls s ++ scanUrls t := by
  intro n
  induction n with
  | zero =>
    intro s hs t
    have h0 : s = [] := List.length_eq_zero.mp (Nat.le_zero.mp hs)
    subst h0
    rw [List.nil_append, scanUrls_cons, tryUrlScheme_nl_head]
    rfl
  | succ n ih =>
    intro s hs t
    cases s with
    | nil =>
      rw [List.nil_append, scanUrls_cons, tryUrlScheme_nl_head]
      rfl
    | cons c cs =>
      simp only [List.length_cons] at hs
      rw [List.cons_append, scanUrls_cons, scanUrls_cons]
      cases htry : tryUrlScheme (c :: cs) with
      | some mr =>
        obtain ⟨m, r⟩ := mr
        have htry2 := tryUrlScheme_some_append (t := t) htry
        rw [List.cons_append] at htry2
        rw [htry2]
        show m :: scanUrls (r ++ '\n' :: t) = (m :: scanUrls r) ++ scanUrls t
        rw [List.cons_append]
        have hr := tryUrlScheme_some_length htry
        simp only [List.length_cons] at hr
        rw [ih r (by omega) t]
      | none =>
        have htry2 := tryUrlScheme_none_append (t := t) htry
        rw [List.cons_append] at htry2
        rw [htry2]
        show scanUrls (cs ++ '\n' :: t) = scanUrls cs ++ scanUrls t
        exact ih cs (by omega) t

/-! ### Code-point order on strings (Python `sorted`) and `parse_task_refs` -/

/-- Lexicographic comparison of character lists by code point, matching
Python string comparison. -/
def charListLe : List Char → List Char → Bool
  | [], _ => true
  | _ :: _, [] => false
  | a :: as, b :: bs =>
    if a.toNat < b.toNat then true
    else if b.toNat < a.toNat then false
    else charListLe as bs

def strLe (a b : String) : Bool := charListLe a.data b.data

theorem charListLe_total : ∀ a b : List Char, charListLe a b = true ∨ charListLe b a = true := by
  intro a
  induction a with
  | nil => intro b; exact Or.inl rfl
  | cons x xs ih =>
    intro b
    cases b with
    | nil => exact Or.inr rfl
    | cons y ys =>
      simp only [charListLe]
      by_cases h1 : x.toNat < y.toNat
      · left; rw [if_pos h1]
      · by_cases h2 : y.toNat < x.toNat
        · right; rw [if_pos h2]
        · rw [if_neg h1, if_neg h2, if_neg h2, if_neg h1]
          exact ih ys

theorem charListLe_trans : ∀ a b c : List Char, charListLe a b = true →
    charListLe b c = true → charListLe a c = true := by
  intro a
  induction a with
  | nil => intro b c _ _; rfl
  | cons x xs ih =>
    intro b c hab hbc
    cases b with
    | nil => simp [charListLe] at hab
    | cons y ys =>
      cases c with
      | nil => simp [charListLe] at hbc
      | cons z zs =>
        simp only [charListLe] at hab hbc ⊢
        by_cases hxy : x.toNat < y.toNat
        · by_cases hyz : y.toNat < z.toNat
          · rw [if_pos (by omega : x.toNat < z.toNat)]
          · by_cases hzy : z.toNat < y.toNat
            · rw [if_neg hyz, if_pos hzy] at hbc
              cases hbc
            · rw [if_pos (by omega : x.toNat < z.toNat)]
        · by_cases hyx : y.toNat < x.toNat
          · rw [if_neg hxy, if_pos hyx] at hab
            cases hab
          · by_cases hyz : y.toNat < z.toNat
            · rw [if_pos (by omega : x.toNat < z.toNat)]
            · by_cases hzy : z.toNat < y.toNat
              · rw [if_neg hyz, if_pos hzy] at hbc
                cases hbc
              · rw [if_neg (by omega : ¬ x.toNat < z.toNat),
                  if_neg (by omega : ¬ z.toNat < x.toNat)]
                rw [if_neg hxy, if_neg hyx] at hab
                rw [if_neg hyz, if_neg hzy] at hbc
                exact ih ys zs hab hbc

theorem charListLe_antisymm : ∀ a b : List Char, charListLe a b = true →
    charListLe b a = true → a = b := by
  intro a
  induction a with
  | nil =>
    intro b _ hba
    cases b with
    | nil => rfl
    | cons y ys => simp [charListLe] at hba
  | cons x xs ih =>
    intro b hab hba
    cases b with
    | nil => simp [charListLe] at hab
    | cons y ys =>
      simp only [charListLe] at hab hba
      by_cases hxy : x.toNat < y.toNat
      · rw [if_neg (by omega : ¬ y.toNat < x.toNat), if_pos hxy] at hba
        cases hba
      · by_cases hyx : y.toNat < x.toNat
        · rw [if_neg hxy, if_pos hyx] at hab
          cases hab
        · rw [if_neg hxy, if_neg hyx] at hab
          rw [if_neg hyx, if_neg hxy] at hba
          have hxyeq : x = y := charToNat_inj (by omega)
          rw [hxyeq, ih ys hab hba]

instance : IsTotal String fun a b => strLe a b = true :=
  ⟨fun a b => charListLe_total a.data b.data⟩

instance : IsTrans String fun a b => strLe a b = true :=
  ⟨fun a b c => charListLe_trans a.data b.data c.data⟩

instance : IsAntisymm String fun a b => strLe a b = true := by
  refine ⟨fun a b hab hba => ?_⟩
  cases a with
  | mk la =>
    cases b with
    | mk lb =>
      have := charListLe_antisymm la lb hab hba
      rw [this]

/-- Python `sorted(set(xs))`: distinct elements in ascending code-point
order. -/
def sortedDedup (l : List String) : List String :=
  List.insertionSort (fun a b => strLe a b = true) l.dedup

theorem sortedDedup_perm_congr {l1 l2 : List String} (h : l1.Perm l2) :
    sortedDedup l1 = sortedDedup l2 := by
  apply List.eq_of_perm_of_sorted
    (r := fun a b => strLe a b = true)
  · exact (List.perm_insertionSort _ _).trans (h.dedup.trans
      (List.perm_insertionSort _ _).symm)
  · exact List.sorted_insertionSort _ _
  · exact List.sorted_insertionSort _ _

/-- Python `str.upper` (ASCII range). -/
def upperStr (s : String) : String := String.mk (s.data.map Char.toUpper)

theorem upperStr_idem (s : String) : upperStr (upperStr s) = upperStr s := by
  unfold upperStr
  show String.mk ((s.data.map Char.toUpper).map Char.toUpper) = _
  rw [List.map_map]
  have : ∀ c ∈ s.data, (Char.toUpper ∘ Char.toUpper) c = Char.toUpper c := fun c _ =>
    toUpper_idem c
  rw [List.map_congr_left this]

/-- `TASK_PREFIX = os.getenv("TASK_PREFIX", "TASK")` — the default. -/
def TASK_PFX : String := "TASK"

/-- `parse_task_refs(title, body, branch)`: joins the three fields with
newlines, collects the task-code matches (upper-cased) and the Notion-URL
matches, each as a sorted deduplicated list. -/
def parse_task_refs (pfx : String) (title body branch : String) :
    List String × List String :=
  let text := title.data ++ '\n' :: (body.data ++ '\n' :: branch.data)
  (sortedDedup ((scanTasks [pfx.data] false text).map fun m => upperStr (String.mk m)),
   sortedDedup ((scanUrls text).map String.mk))

/-- C8: identifier extraction is idempotent and order-insensitive — it is
a pure function (running it twice on the same inputs gives the same
pair), permuting the three input fields (title, body, branch) never
changes either returned set (the newline joins mean no match crosses a
field boundary, so the match multiset is permutation-invariant and the
sorted deduplicated lists coincide), both returned lists are sorted in
code-point order, and every returned short code is upper-cased. -/
theorem parse_task_refs_props (t b br t2 b2 br2 : String)
    (hperm : ([t, b, br] : List String).Perm [t2, b2, br2]) :
    parse_task_refs TASK_PFX t b br = parse_task_refs TASK_PFX t2 b2 br2 ∧
    parse_task_refs TASK_PFX t b br = parse_task_refs TASK_PFX t b br ∧
    List.Sorted (fun a b => strLe a b = true) (parse_task_refs TASK_PFX t b br).1 ∧
    List.Sorted (fun a b => strLe a b = true) (parse_task_refs TASK_PFX t b br).2 ∧
    ∀ x ∈ (parse_task_refs TASK_PFX t b br).1, upperStr x = x := by
  have hp : ∀ pfx ∈ [TASK_PFX.data], ∀ c ∈ pfx ++ ['-'], c.toLower ≠ '\n' := by decide
  have scan3 : ∀ x y z : String,
      scanTasks [TASK_PFX.data] false (x.data ++ '\n' :: (y.data ++ '\n' :: z.data)) =
        ([x, y, z].map fun s => scanTasks [TASK_PFX.data] false s.data).flatten := by
    intro x y z
    rw [scanTasks_append_nl [TASK_PFX.data] hp x.data.length x.data (le_refl _) _ false,
      scanTasks_append_nl [TASK_PFX.data] hp y.data.length y.data (le_refl _) _ false]
    simp
  have urls3 : ∀ x y z : String,
      scanUrls (x.data ++ '\n' :: (y.data ++ '\n' :: z.data)) =
        ([x, y, z].map fun s => scanUrls s.data).flatten := by
    intro x y z
    rw [scanUrls_append_nl x.data.length x.data (le_refl _),
      scanUrls_append_nl y.data.length y.data (le_refl _)]
    simp
  refine ⟨?_, rfl, List.sorted_insertionSort _ _, List.sorted_insertionSort _ _, ?_⟩
  · have hids : sortedDedup (((([t, b, br].map fun s =>
        scanTasks [TASK_PFX.data] false s.data).flatten)).map
          fun m => upperStr (String.mk m)) =
        sortedDedup (((([t2, b2, br2].map fun s =>
          scanTasks [TASK_PFX.data] false s.data).flatten)).map
            fun m => upperStr (String.mk m)) :=
      sortedDedup_perm_congr (((hperm.map _).flatten).map _)
    have hurls : sortedDedup ((([t, b, br].map fun s => scanUrls s.data).flatten).map
        String.mk) =
        sortedDedup ((([t2, b2, br2].map fun s => scanUrls s.data).flatten).map
          String.mk) :=
      sortedDedup_perm_congr (((hperm.map _).flatten).map _)
    simp only [parse_task_refs]
    rw [scan3 t b br, scan3 t2 b2 br2, urls3 t b br, urls3 t2 b2 br2, hids, hurls]
  · intro x hx
    simp only [parse_task_refs, sortedDedup] at hx
    rw [List.mem_insertionSort, List.mem_dedup] at hx
    obtain ⟨m, _, hm⟩ := List.mem_map.mp hx
    rw [← hm, upperStr_idem]

/-- Witness for C8: a concrete permutation of three concrete PR fields
yields identical extraction results. -/
theorem parse_task_refs_props_witness :
    parse_task_refs TASK_PFX "Fix TASK-12" "see https://www.notion.so/x TASK-9"
        "feature/task-12" =
      parse_task_refs TASK_PFX "see https://www.notion.so/x TASK-9" "feature/task-12"
        "Fix TASK-12" :=
  (parse_task_refs_props "Fix TASK-12" "see https://www.notion.so/x TASK-9"
    "feature/task-12" "see https://www.notion.so/x TASK-9" "feature/task-12"
    "Fix TASK-12" (by decide)).1
